import Mathlib

/-!
Verification development for the curve-ready repository.

The repository reconciles two tabular data sources about music publishing
works.  We give a shallow embedding of its pure computational core:

* the value normalizer used for join keys (step2.py, function named _norm),
* the keyword-based header resolver (step2.py _find_jot_col, app.py
  find_col_name, step2.py _find_sheet_name),
* the ISWC cleaning pipeline (app.py, process_curve_files),
* the two notes-aggregation functions (app.py combine_notes_row and
  utils.py generate_notes_content), and
* the chain-row generator (step2.py, process_alternate_titles,
  participant partitioning and row emission).

Python strings are modelled as lists of characters; Python floats are
modelled exactly as dyadic rationals m / 2 ^ e together with NaN and the
infinities; numeric shares are modelled as rationals (multiplication by
0.5 is exact both for IEEE floats and for rationals, so nothing is lost).
-/

/-! ## Python string primitives -/

/-- Whitespace test matching the character class used by Python strip and
by the regex class backslash-s on the ASCII range: space, tab, newline,
carriage return, vertical tab, form feed. -/
def isPySpace (c : Char) : Bool :=
  c.toNat == 32 || c.toNat == 9 || c.toNat == 10 || c.toNat == 13 ||
    c.toNat == 11 || c.toNat == 12

/-- Left part of Python strip: drop leading whitespace. -/
def pyTrimLeft (s : List Char) : List Char := s.dropWhile isPySpace

/-- Right part of Python strip: drop trailing whitespace. -/
def pyTrimRight (s : List Char) : List Char :=
  (s.reverse.dropWhile isPySpace).reverse

/-- Python str.strip: drop whitespace at both ends. -/
def pyStrip (s : List Char) : List Char := pyTrimRight (pyTrimLeft s)

/-- Worker for whitespace collapsing; the boolean records whether the
previously seen character was whitespace (in which case further
whitespace is absorbed into the already-emitted single space). -/
def collapseAux (prevWs : Bool) : List Char → List Char
  | [] => []
  | c :: rest =>
    if isPySpace c then
      if prevWs then collapseAux true rest
      else ' ' :: collapseAux true rest
    else c :: collapseAux false rest

/-- Model of re.sub applied with the pattern of one-or-more whitespace and
the single-space replacement: every maximal whitespace run becomes one
space. -/
def collapseWs (s : List Char) : List Char := collapseAux false s

/-- Python str.lower on our character model (basic latin letters). -/
def toLowerStr (s : List Char) : List Char := s.map Char.toLower

/-- Python str.upper on our character model (basic latin letters). -/
def toUpperStr (s : List Char) : List Char := s.map Char.toUpper

/-- Test whether the first list is an initial segment of the second. -/
def listStartsWith : List Char → List Char → Bool
  | [], _ => true
  | _ :: _, [] => false
  | a :: as, b :: bs => a == b && listStartsWith as bs

/-- Model of the Python substring test (the in operator on strings):
the needle occurs contiguously somewhere in the haystack. -/
def containsSeq (needle : List Char) : List Char → Bool
  | [] => needle.isEmpty
  | c :: rest => listStartsWith needle (c :: rest) || containsSeq needle rest

/-- Model of re.fullmatch with the pattern digits-dot-zero: one or more
decimal digits followed by a literal dot and the digit zero. -/
def matchesNumDotZero (s : List Char) : Bool :=
  let ds := s.takeWhile Char.isDigit
  !ds.isEmpty && s.drop ds.length == ['.', '0']

/-- Decimal digit characters of a natural number, most significant first,
as produced by Python str on a nonnegative integer. -/
def natDigits (n : Nat) : List Char :=
  if _h : n < 10 then [Nat.digitChar n]
  else natDigits (n / 10) ++ [Nat.digitChar (n % 10)]
  decreasing_by exact Nat.div_lt_self (by omega) (by omega)

/-- Python str on an integer. -/
def intRepr (n : Int) : List Char :=
  if n < 0 then '-' :: natDigits n.natAbs else natDigits n.natAbs

/-! ## Python scalar values

A cell value as seen by the code: Python None, float NaN, an integer, a
finite binary float m / 2 ^ e, a signed infinity, a boolean, or a string.
-/

inductive PyVal : Type where
  | pyNone : PyVal
  | nan : PyVal
  | int (n : Int) : PyVal
  | float (m : Int) (e : Nat) : PyVal
  | inf (negative : Bool) : PyVal
  | bool (b : Bool) : PyVal
  | str (s : List Char) : PyVal
deriving DecidableEq

/-- Integer test of a finite binary float, as Python float.is_integer. -/
def floatIsInt (m : Int) (e : Nat) : Bool := m % ((2 : Int) ^ e) == 0

/-- Left-pad a digit list with zeros to the given width. -/
def leftPadZeros (width : Nat) (ds : List Char) : List Char :=
  List.replicate (width - ds.length) '0' ++ ds

/-- Drop trailing zero digits. -/
def dropTrailingZeros (l : List Char) : List Char :=
  (l.reverse.dropWhile (fun c => c == '0')).reverse

/-- Decimal rendering of a non-integer finite binary float m / 2 ^ e:
sign, integer part, dot, then the exact (terminating) fractional digits
with trailing zeros removed.  A binary float whose fraction is nonzero
has a terminating decimal expansion of at most e digits, so this is
exact; Python repr prints the shortest round-tripping decimal, which
agrees with the exact expansion on every property used here (no
whitespace, no uppercase letters, a fractional part other than a lone
zero digit). -/
def pyFloatRepr (m : Int) (e : Nat) : List Char :=
  let n := m.natAbs
  let intPart := n / 2 ^ e
  let fracNum := n % 2 ^ e
  let d := fracNum * 5 ^ e
  let frac := dropTrailingZeros (leftPadZeros e (natDigits d))
  (if m < 0 then ['-'] else []) ++ natDigits intPart ++ '.' :: frac

/-- Python str on a scalar value. -/
def pyStrOf : PyVal → List Char
  | .pyNone => "None".data
  | .nan => "nan".data
  | .int n => intRepr n
  | .float m e =>
    if floatIsInt m e then intRepr (m / (2 : Int) ^ e) ++ ['.', '0']
    else pyFloatRepr m e
  | .inf negative => if negative then "-inf".data else "inf".data
  | .bool b => if b then "True".data else "False".data
  | .str s => s

/-! ## The normalizer (step2.py, function _norm) -/

/-- String branch of the normalizer: strip, lower-case, collapse
whitespace runs, then remove a trailing dot-zero from a pure integer
literal. -/
def pyStrNorm (s : List Char) : List Char :=
  let t := collapseWs (toLowerStr (pyStrip s))
  if matchesNumDotZero t then t.take (t.length - 2) else t

/-- Model of _norm from step2.py.  None and NaN normalize to the empty
string; an integer-valued float is cast to an integer before being
stringified; other numbers are stringified, stripped and lower-cased;
strings additionally get whitespace runs collapsed and a trailing
dot-zero removed from integer literals. -/
def pyNorm : PyVal → List Char
  | .pyNone => []
  | .nan => []
  | .int n => toLowerStr (pyStrip (intRepr n))
  | .float m e =>
    if floatIsInt m e then toLowerStr (pyStrip (intRepr (m / (2 : Int) ^ e)))
    else toLowerStr (pyStrip (pyFloatRepr m e))
  | .inf negative =>
    toLowerStr (pyStrip (if negative then "-inf".data else "inf".data))
  | .bool b => toLowerStr (pyStrip (if b then "True".data else "False".data))
  | .str s => pyStrNorm s

/-! ## Chain-row generator (step2.py, process_alternate_titles) -/

/-- One extracted participant record, mirroring the per-writer record
built in the extraction loop of process_alternate_titles. -/
structure WriterRec : Type where
  c_first : List Char
  c_mid : List Char
  c_last : List Char
  c_name : List Char
  c_share : ℚ
  c_cap : List Char
  c_cae : PyVal
  p_name : List Char
  p_cae : PyVal
  p_cap : List Char
  mech_val : ℚ
  is_controlled : Bool
  is_publisher_controlled : Bool
deriving DecidableEq

instance : Inhabited WriterRec :=
  ⟨{ c_first := [], c_mid := [], c_last := [], c_name := [], c_share := 0,
     c_cap := [], c_cae := .pyNone, p_name := [], p_cae := .pyNone,
     p_cap := [], mech_val := 0, is_controlled := false,
     is_publisher_controlled := false }⟩

/-- One populated participant slot of an emitted IP-chain row. -/
structure Slot : Type where
  stype : List Char
  name : List Char
  first : List Char
  middle : List Char
  surname : List Char
  cae : PyVal
  controlled : Bool
  mechOwn : ℚ
  mechColl : ℚ
  perfOwn : ℚ
  perfColl : ℚ
  capacity : List Char
deriving DecidableEq

/-- One emitted IP-chain row: a group tag, the publisher slot (slot 1)
and the composer slots (slots 2 and up). -/
structure ChainRow : Type where
  rowType : List Char
  pub : Slot
  composers : List Slot
deriving DecidableEq

/-- The controlled mechanical value (named elite_mech_value in the code):
the first positive mechanical value among the publisher-controlled
participants, else the first positive mechanical value among all
participants, else zero. -/
def eliteMechValue (ws : List WriterRec) : ℚ :=
  let controlledGroup := ws.filter (fun w => w.is_publisher_controlled)
  match controlledGroup.find? (fun w => decide (0 < w.mech_val)) with
  | some w => w.mech_val
  | none =>
    match ws.find? (fun w => decide (0 < w.mech_val)) with
    | some w => w.mech_val
    | none => 0

/-- Composer slot written for one writer: type Composer, the extracted
name parts, the composer-specific controlled flag, zero mechanical
percentages, and performance percentages of half the ownership share. -/
def mkComposerSlot (w : WriterRec) : Slot :=
  { stype := "Composer".data
    name := w.c_name
    first := w.c_first
    middle := w.c_mid
    surname := w.c_last
    cae := w.c_cae
    controlled := w.is_controlled
    mechOwn := 0
    mechColl := 0
    perfOwn := w.c_share * 0.5
    perfColl := w.c_share * 0.5
    capacity := w.c_cap }

/-- The chain row emitted for one writer group.  Slot 1 is the publisher:
for the controlled group it reuses the first writer's extracted publisher
data and the controlled mechanical value; for the other group it is the
synthesized Copyright Control placeholder carrying the remainder.  The
performance percentages are half the mechanical value.  Composer slots
start at slot 2, and the loop breaks once the slot index passes 10, so at
most nine writers get composer slots. -/
def mkChainRow (rtype : List Char) (writers : List WriterRec) (elite : ℚ) :
    ChainRow :=
  let pub : Slot :=
    if rtype = "controlled".data then
      let w0 := writers.headI
      { stype := "Publisher".data, name := w0.p_name, first := [],
        middle := [], surname := [], cae := w0.p_cae, controlled := true,
        mechOwn := elite, mechColl := elite, perfOwn := elite * 0.5,
        perfColl := elite * 0.5, capacity := w0.p_cap }
    else
      { stype := "Publisher".data, name := "Copyright Control".data,
        first := [], middle := [], surname := [],
        cae := .str "00000000000".data, controlled := false,
        mechOwn := 100 - elite, mechColl := 100 - elite,
        perfOwn := (100 - elite) * 0.5, perfColl := (100 - elite) * 0.5,
        capacity := "Original Publisher".data }
  { rowType := rtype, pub := pub
    composers := (writers.take 9).map mkComposerSlot }

/-- Rows emitted for one work: the extracted writers are partitioned by
the publisher-controlled flag, and one row is emitted per non-empty
group, controlled group first. -/
def chainRows (ws : List WriterRec) : List ChainRow :=
  let controlledGroup := ws.filter (fun w => w.is_publisher_controlled)
  let otherGroup := ws.filter (fun w => !w.is_publisher_controlled)
  let elite := eliteMechValue ws
  (if controlledGroup.isEmpty then []
   else [mkChainRow "controlled".data controlledGroup elite]) ++
  (if otherGroup.isEmpty then []
   else [mkChainRow "other".data otherGroup elite])

/-- Total number of populated composer slots across a list of rows. -/
def totalComposerSlots (rows : List ChainRow) : Nat :=
  (rows.map (fun r => r.composers.length)).sum

/-! ## Lemmas about the chain-row generator -/

theorem chainRows_eq (ws : List WriterRec) :
    chainRows ws =
      (if (ws.filter (fun w => w.is_publisher_controlled)).isEmpty then []
       else [mkChainRow "controlled".data
              (ws.filter (fun w => w.is_publisher_controlled))
              (eliteMechValue ws)]) ++
      (if (ws.filter (fun w => !w.is_publisher_controlled)).isEmpty then []
       else [mkChainRow "other".data
              (ws.filter (fun w => !w.is_publisher_controlled))
              (eliteMechValue ws)]) := rfl

theorem mem_chainRows {ws : List WriterRec} {row : ChainRow}
    (h : row ∈ chainRows ws) :
    row = mkChainRow "controlled".data
            (ws.filter (fun w => w.is_publisher_controlled))
            (eliteMechValue ws) ∨
    row = mkChainRow "other".data
            (ws.filter (fun w => !w.is_publisher_controlled))
            (eliteMechValue ws) := by
  rw [chainRows_eq] at h
  rcases List.mem_append.1 h with h1 | h1 <;>
    [left; right] <;> (split at h1 <;> simp_all)

theorem mkChainRow_rowType (t : List Char) (g : List WriterRec) (e : ℚ) :
    (mkChainRow t g e).rowType = t := rfl

theorem mkChainRow_pub_fields (t : List Char) (g : List WriterRec) (e : ℚ) :
    (mkChainRow t g e).pub.stype = "Publisher".data ∧
    (mkChainRow t g e).pub.perfOwn = (mkChainRow t g e).pub.mechOwn * 0.5 ∧
    (mkChainRow t g e).pub.perfColl = (mkChainRow t g e).pub.mechOwn * 0.5 ∧
    (mkChainRow t g e).pub.mechColl = (mkChainRow t g e).pub.mechOwn := by
  rw [mkChainRow]; split <;> exact ⟨rfl, rfl, rfl, rfl⟩

theorem mkChainRow_controlled_mechOwn (g : List WriterRec) (e : ℚ) :
    (mkChainRow "controlled".data g e).pub.mechOwn = e := by
  rw [mkChainRow, if_pos rfl]

theorem mkChainRow_other_mechOwn (g : List WriterRec) (e : ℚ) :
    (mkChainRow "other".data g e).pub.mechOwn = 100 - e := by
  rw [mkChainRow, if_neg (by decide)]

theorem mkChainRow_composers (t : List Char) (g : List WriterRec) (e : ℚ) :
    (mkChainRow t g e).composers = (g.take 9).map mkComposerSlot := rfl

theorem mem_composers {t : List Char} {g : List WriterRec} {e : ℚ} {s : Slot}
    (h : s ∈ (mkChainRow t g e).composers) : ∃ w ∈ g, s = mkComposerSlot w := by
  rw [mkChainRow_composers] at h
  rcases List.mem_map.1 h with ⟨w, hw, hs⟩
  exact ⟨w, List.mem_of_mem_take hw, hs.symm⟩

/-! ## Claim theorems about the chain-row generator -/

/-- Claim C1: in every emitted chain row, the publisher slot has
performance-owned and performance-collected equal to half its
mechanical-owned value, and every composer slot is built from one of the
extracted participants with performance-owned and performance-collected
equal to half that participant's ownership share and with zero
mechanical-owned and mechanical-collected. -/
theorem c1_performance_half (ws : List WriterRec) (row : ChainRow)
    (h : row ∈ chainRows ws) :
    (row.pub.perfOwn = row.pub.mechOwn * 0.5 ∧
     row.pub.perfColl = row.pub.mechOwn * 0.5) ∧
    ∀ s ∈ row.composers, ∃ w ∈ ws,
      s = mkComposerSlot w ∧ s.perfOwn = w.c_share * 0.5 ∧
      s.perfColl = w.c_share * 0.5 ∧ s.mechOwn = 0 ∧ s.mechColl = 0 := by
  have hcomp : ∀ (t : List Char) (g : List WriterRec) (e : ℚ),
      row = mkChainRow t g e → g = ws.filter (fun w => w.is_publisher_controlled) ∨
      g = ws.filter (fun w => !w.is_publisher_controlled) →
      (row.pub.perfOwn = row.pub.mechOwn * 0.5 ∧
       row.pub.perfColl = row.pub.mechOwn * 0.5) ∧
      ∀ s ∈ row.composers, ∃ w ∈ ws,
        s = mkComposerSlot w ∧ s.perfOwn = w.c_share * 0.5 ∧
        s.perfColl = w.c_share * 0.5 ∧ s.mechOwn = 0 ∧ s.mechColl = 0 := by
    rintro t g e rfl hg
    refine ⟨⟨(mkChainRow_pub_fields t g e).2.1, (mkChainRow_pub_fields t g e).2.2.1⟩, ?_⟩
    intro s hs
    obtain ⟨w, hw, rfl⟩ := mem_composers hs
    have hwws : w ∈ ws := by
      rcases hg with rfl | rfl <;> exact (List.mem_filter.1 hw).1
    exact ⟨w, hwws, rfl, rfl, rfl, rfl, rfl⟩
  rcases mem_chainRows h with hr | hr
  · exact hcomp _ _ _ hr (Or.inl rfl)
  · exact hcomp _ _ _ hr (Or.inr rfl)

/-- Concrete controlled-group writer used in witnesses. -/
def wCtrl : WriterRec :=
  { (default : WriterRec) with
      is_publisher_controlled := true, c_share := 50, mech_val := 50,
      p_name := "Elite Embassy Publishing".data }

/-- Concrete other-group writer used in witnesses. -/
def wOther : WriterRec :=
  { (default : WriterRec) with
      is_publisher_controlled := false, c_share := 50, mech_val := 0 }

/-- Witness for claim C1 at a one-writer input. -/
theorem c1_performance_half_witness :
    (mkChainRow "controlled".data [wCtrl] 50 ∈ chainRows [wCtrl]) ∧
    (((mkChainRow "controlled".data [wCtrl] 50).pub.perfOwn =
        (mkChainRow "controlled".data [wCtrl] 50).pub.mechOwn * 0.5 ∧
      (mkChainRow "controlled".data [wCtrl] 50).pub.perfColl =
        (mkChainRow "controlled".data [wCtrl] 50).pub.mechOwn * 0.5) ∧
     ∀ s ∈ (mkChainRow "controlled".data [wCtrl] 50).composers, ∃ w ∈ [wCtrl],
       s = mkComposerSlot w ∧ s.perfOwn = w.c_share * 0.5 ∧
       s.perfColl = w.c_share * 0.5 ∧ s.mechOwn = 0 ∧ s.mechColl = 0) :=
  ⟨List.Mem.head _, c1_performance_half [wCtrl] _ (List.Mem.head _)⟩

/-- Claim C2: when both a controlled and an other chain row are emitted
for one work, the other row's publisher mechanical-owned value is exactly
100 minus the controlled row's publisher mechanical-owned value, and the
controlled row's publisher mechanical-owned value is the controlled
mechanical value (first positive mechanical percentage among
controlled-group participants, else among all participants, else 0). -/
theorem c2_remainder (ws : List WriterRec)
    (hc : (ws.filter (fun w => w.is_publisher_controlled)).isEmpty = false)
    (ho : (ws.filter (fun w => !w.is_publisher_controlled)).isEmpty = false) :
    ∃ rc ro, chainRows ws = [rc, ro] ∧
      rc.rowType = "controlled".data ∧ ro.rowType = "other".data ∧
      rc.pub.mechOwn = eliteMechValue ws ∧
      ro.pub.mechOwn = 100 - rc.pub.mechOwn := by
  have h1 : chainRows ws =
      [mkChainRow "controlled".data
        (ws.filter (fun w => w.is_publisher_controlled)) (eliteMechValue ws),
       mkChainRow "other".data
        (ws.filter (fun w => !w.is_publisher_controlled)) (eliteMechValue ws)] := by
    rw [chainRows_eq, if_neg (by simp [hc]), if_neg (by simp [ho])]
    rfl
  refine ⟨_, _, h1, mkChainRow_rowType _ _ _, mkChainRow_rowType _ _ _,
    mkChainRow_controlled_mechOwn _ _, ?_⟩
  rw [mkChainRow_other_mechOwn, mkChainRow_controlled_mechOwn]

/-- Witness for claim C2 at a two-writer input with one writer in each
group. -/
theorem c2_remainder_witness :
    ((([wCtrl, wOther] : List WriterRec).filter
        (fun w => w.is_publisher_controlled)).isEmpty = false) ∧
    ((([wCtrl, wOther] : List WriterRec).filter
        (fun w => !w.is_publisher_controlled)).isEmpty = false) ∧
    (∃ rc ro, chainRows [wCtrl, wOther] = [rc, ro] ∧
      rc.rowType = "controlled".data ∧ ro.rowType = "other".data ∧
      rc.pub.mechOwn = eliteMechValue [wCtrl, wOther] ∧
      ro.pub.mechOwn = 100 - rc.pub.mechOwn) :=
  ⟨rfl, rfl, c2_remainder [wCtrl, wOther] rfl rfl⟩

theorem composer_slots_facts (t : List Char) (g : List WriterRec) (e : ℚ) :
    (∀ s ∈ (mkChainRow t g e).composers, s.stype = "Composer".data) ∧
    (mkChainRow t g e).composers.length ≤ 9 := by
  constructor
  · intro s hs
    obtain ⟨w, _, rfl⟩ := mem_composers hs
    rfl
  · rw [mkChainRow_composers, List.length_map, List.length_take]
    omega

/-- Claim C3: the generator emits at most two chain rows per work, one
per non-empty partition with the controlled row first; in every emitted
row slot 1 is the publisher slot, the remaining slots are composer slots,
and at most 10 slots are populated. -/
theorem c3_row_shape (ws : List WriterRec) :
    (chainRows ws).length ≤ 2 ∧
    (chainRows ws).map (fun r => r.rowType) =
      (if (ws.filter (fun w => w.is_publisher_controlled)).isEmpty then []
       else ["controlled".data]) ++
      (if (ws.filter (fun w => !w.is_publisher_controlled)).isEmpty then []
       else ["other".data]) ∧
    ∀ row ∈ chainRows ws,
      row.pub.stype = "Publisher".data ∧
      (∀ s ∈ row.composers, s.stype = "Composer".data) ∧
      1 + row.composers.length ≤ 10 := by
  refine ⟨?_, ?_, ?_⟩
  · rw [chainRows_eq]; split <;> split <;> simp
  · rw [chainRows_eq]; split <;> split <;> simp [mkChainRow_rowType]
  · intro row h
    have key : ∀ (t : List Char) (g : List WriterRec) (e : ℚ),
        (mkChainRow t g e).pub.stype = "Publisher".data ∧
        (∀ s ∈ (mkChainRow t g e).composers, s.stype = "Composer".data) ∧
        1 + (mkChainRow t g e).composers.length ≤ 10 := by
      intro t g e
      refine ⟨(mkChainRow_pub_fields t g e).1, (composer_slots_facts t g e).1, ?_⟩
      have := (composer_slots_facts t g e).2
      omega
    rcases mem_chainRows h with rfl | rfl <;> exact key _ _ _

/-- Witness for claim C3 at a one-writer input. -/
theorem c3_row_shape_witness :
    (chainRows [wCtrl]).length ≤ 2 ∧
    ((chainRows [wCtrl]).map (fun r => r.rowType) =
      (if (([wCtrl] : List WriterRec).filter
            (fun w => w.is_publisher_controlled)).isEmpty then []
       else ["controlled".data]) ++
      (if (([wCtrl] : List WriterRec).filter
            (fun w => !w.is_publisher_controlled)).isEmpty then []
       else ["other".data])) :=
  ⟨(c3_row_shape [wCtrl]).1, (c3_row_shape [wCtrl]).2.1⟩

/-- Claim C9: in every emitted chain row, each populated slot has its
mechanical-collected value equal to its mechanical-owned value and its
performance-collected value equal to its performance-owned value. -/
theorem c9_collected_eq_owned (ws : List WriterRec) (row : ChainRow)
    (h : row ∈ chainRows ws) :
    (row.pub.mechColl = row.pub.mechOwn ∧ row.pub.perfColl = row.pub.perfOwn) ∧
    ∀ s ∈ row.composers, s.mechColl = s.mechOwn ∧ s.perfColl = s.perfOwn := by
  have key : ∀ (t : List Char) (g : List WriterRec) (e : ℚ),
      ((mkChainRow t g e).pub.mechColl = (mkChainRow t g e).pub.mechOwn ∧
       (mkChainRow t g e).pub.perfColl = (mkChainRow t g e).pub.perfOwn) ∧
      ∀ s ∈ (mkChainRow t g e).composers,
        s.mechColl = s.mechOwn ∧ s.perfColl = s.perfOwn := by
    intro t g e
    refine ⟨⟨(mkChainRow_pub_fields t g e).2.2.2,
      ((mkChainRow_pub_fields t g e).2.2.1).trans
        ((mkChainRow_pub_fields t g e).2.1).symm⟩, ?_⟩
    intro s hs
    obtain ⟨w, _, rfl⟩ := mem_composers hs
    exact ⟨rfl, rfl⟩
  rcases mem_chainRows h with rfl | rfl <;> exact key _ _ _

/-- Witness for claim C9 at a one-writer input. -/
theorem c9_collected_eq_owned_witness :
    (mkChainRow "controlled".data [wCtrl] 50 ∈ chainRows [wCtrl]) ∧
    (((mkChainRow "controlled".data [wCtrl] 50).pub.mechColl =
        (mkChainRow "controlled".data [wCtrl] 50).pub.mechOwn ∧
      (mkChainRow "controlled".data [wCtrl] 50).pub.perfColl =
        (mkChainRow "controlled".data [wCtrl] 50).pub.perfOwn) ∧
     ∀ s ∈ (mkChainRow "controlled".data [wCtrl] 50).composers,
       s.mechColl = s.mechOwn ∧ s.perfColl = s.perfOwn) :=
  ⟨List.Mem.head _, c9_collected_eq_owned [wCtrl] _ (List.Mem.head _)⟩

theorem totalComposerSlots_nil : totalComposerSlots [] = 0 := rfl

theorem totalComposerSlots_cons (r : ChainRow) (rs : List ChainRow) :
    totalComposerSlots (r :: rs) = r.composers.length + totalComposerSlots rs := by
  simp [totalComposerSlots]

/-- Claim C4 fails on the code: with ten extracted participants all in
the controlled group, the emitted row only has nine composer slots (the
slot index is capped at 10 and slot 1 is the publisher), so the composer
slot count across the two groups is 9, not 10. -/
theorem c4_counterexample :
    (List.replicate 10 wCtrl).length = 10 ∧
    totalComposerSlots (chainRows (List.replicate 10 wCtrl)) ≠
      (List.replicate 10 wCtrl).length := by
  refine ⟨rfl, ?_⟩
  have h9 : totalComposerSlots (chainRows (List.replicate 10 wCtrl)) = 9 := rfl
  rw [h9]
  decide

/-- Claim C4, amended: the populated composer-slot counts of the
controlled row and of the other row sum to the number of extracted
participants provided neither group exceeds nine participants (a tenth
or later participant of a group gets no composer slot because slots are
capped at 10 per row and slot 1 is the publisher); and at most one chain
row exists per group. -/
theorem c4_partition_amended (ws : List WriterRec)
    (hc : (ws.filter (fun w => w.is_publisher_controlled)).length ≤ 9)
    (ho : (ws.filter (fun w => !w.is_publisher_controlled)).length ≤ 9) :
    totalComposerSlots (chainRows ws) = ws.length ∧
    ((chainRows ws).filter
      (fun r => r.rowType == "controlled".data)).length ≤ 1 ∧
    ((chainRows ws).filter
      (fun r => r.rowType == "other".data)).length ≤ 1 := by
  have hpart : ws.length =
      (ws.filter (fun w => w.is_publisher_controlled)).length +
      (ws.filter (fun w => !w.is_publisher_controlled)).length := by
    simpa using
      List.length_eq_length_filter_add (l := ws)
        (fun w => w.is_publisher_controlled)
  have hlen : ∀ (t : List Char) (g : List WriterRec) (e : ℚ), g.length ≤ 9 →
      (mkChainRow t g e).composers.length = g.length := by
    intro t g e hg
    rw [mkChainRow_composers, List.length_map, List.length_take]
    omega
  have e1 : (("controlled".data : List Char) == "controlled".data) = true := by decide
  have e2 : (("other".data : List Char) == "controlled".data) = false := by decide
  have e3 : (("other".data : List Char) == "other".data) = true := by decide
  have e4 : (("controlled".data : List Char) == "other".data) = false := by decide
  by_cases h1 : (ws.filter (fun w => w.is_publisher_controlled)).isEmpty
  · by_cases h2 : (ws.filter (fun w => !w.is_publisher_controlled)).isEmpty
    · have hc0 := List.isEmpty_iff.1 h1
      have ho0 := List.isEmpty_iff.1 h2
      rw [chainRows_eq, if_pos h1, if_pos h2]
      refine ⟨?_, by simp, by simp⟩
      rw [List.nil_append, totalComposerSlots_nil, hpart, hc0, ho0]
      rfl
    · have hc0 := List.isEmpty_iff.1 h1
      rw [chainRows_eq, if_pos h1, if_neg h2, List.nil_append]
      refine ⟨?_, ?_, ?_⟩
      · rw [totalComposerSlots_cons, totalComposerSlots_nil,
          hlen _ _ _ ho, hpart, hc0]
        simp
      · exact le_trans (List.length_filter_le _ _) (by simp)
      · exact le_trans (List.length_filter_le _ _) (by simp)
  · by_cases h2 : (ws.filter (fun w => !w.is_publisher_controlled)).isEmpty
    · have ho0 := List.isEmpty_iff.1 h2
      rw [chainRows_eq, if_neg h1, if_pos h2, List.append_nil]
      refine ⟨?_, ?_, ?_⟩
      · rw [totalComposerSlots_cons, totalComposerSlots_nil,
          hlen _ _ _ hc, hpart, ho0]
        simp
      · exact le_trans (List.length_filter_le _ _) (by simp)
      · exact le_trans (List.length_filter_le _ _) (by simp)
    · rw [chainRows_eq, if_neg h1, if_neg h2, List.singleton_append]
      refine ⟨?_, ?_, ?_⟩
      · rw [totalComposerSlots_cons, totalComposerSlots_cons,
          totalComposerSlots_nil, hlen _ _ _ hc, hlen _ _ _ ho]
        omega
      · simp [List.filter_cons, mkChainRow_rowType, e1, e2]
      · simp [List.filter_cons, mkChainRow_rowType, e3, e4]

/-- Witness for the amended claim C4 at a two-writer input. -/
theorem c4_partition_amended_witness :
    ((([wCtrl, wOther] : List WriterRec).filter
        (fun w => w.is_publisher_controlled)).length ≤ 9) ∧
    ((([wCtrl, wOther] : List WriterRec).filter
        (fun w => !w.is_publisher_controlled)).length ≤ 9) ∧
    (totalComposerSlots (chainRows [wCtrl, wOther]) =
      ([wCtrl, wOther] : List WriterRec).length ∧
     ((chainRows [wCtrl, wOther]).filter
       (fun r => r.rowType == "controlled".data)).length ≤ 1 ∧
     ((chainRows [wCtrl, wOther]).filter
       (fun r => r.rowType == "other".data)).length ≤ 1) :=
  ⟨by decide, by decide, c4_partition_amended [wCtrl, wOther] (by decide) (by decide)⟩

/-! ## Header resolver (step2.py _find_jot_col, app.py find_col_name) -/

/-- Cleaned key under which a column label is searched: stripped,
upper-cased, apostrophes removed (step2.py, _find_jot_col). -/
def jotColKey (col : List Char) : List Char :=
  (toUpperStr (pyStrip col)).filter (fun c => !(c == '\''))

/-- Match test of one column label against a list of keyword-sets: some
keyword-set has all its keywords contained in the cleaned label. -/
def colMatchesAny (col : List Char) (patterns : List (List (List Char))) :
    Bool :=
  patterns.any (fun p => p.all (fun w => containsSeq w (jotColKey col)))

/-- Model of _find_jot_col from step2.py: scan the columns in order and
return the position of the first column matching any keyword-set
(the inner loop over keyword-sets only decides whether the current
column matches; the returned value is the column, so keyword-set order
never influences the result). -/
def findJotCol (cols : List (List Char))
    (patterns : List (List (List Char))) : Option Nat :=
  cols.findIdx? (fun col => colMatchesAny col patterns)

/-- Claim-side variant of the header resolver, written after the claim
text of C6: keyword-sets are tried in priority order, each keyword-set
searching all columns before the next keyword-set is tried. -/
def findJotColSpec (cols : List (List Char))
    (patterns : List (List (List Char))) : Option Nat :=
  patterns.findSome? (fun p =>
    cols.findIdx? (fun col => p.all (fun w => containsSeq w (jotColKey col))))

/-- Model of find_col_name from app.py: single keyword-set, first column
whose upper-cased label contains all keywords. -/
def find_col_name (cols : List (List Char)) (keywords : List (List Char)) :
    Option (List Char) :=
  let kws := keywords.map toUpperStr
  cols.find? (fun col => kws.all (fun k => containsSeq k (toUpperStr col)))

/-- Claim C6 fails on the code: with columns BB, AA and keyword-sets
AA then BB, the code returns column 0 (BB, matching the second
keyword-set) while the claimed priority order over keyword-sets would
return column 1 (AA, matching the first keyword-set). -/
theorem c6_counterexample :
    findJotCol ["BB".data, "AA".data] [["AA".data], ["BB".data]] = some 0 ∧
    findJotColSpec ["BB".data, "AA".data] [["AA".data], ["BB".data]] = some 1 := by
  decide

theorem findIdx?_first_iff {α : Type} (p : α → Bool) (l : List α) (i : Nat) :
    l.findIdx? p = some i ↔
      ∃ h : i < l.length, p (l.get ⟨i, h⟩) = true ∧
        ∀ j (hj : j < l.length), j < i → p (l.get ⟨j, hj⟩) = false := by
  induction l generalizing i with
  | nil => simp
  | cons x xs ih =>
    rw [List.findIdx?_cons]
    by_cases hx : p x
    · rw [if_pos hx]
      constructor
      · intro h
        have hi : i = 0 := (Option.some_inj.1 h).symm
        subst hi
        exact ⟨Nat.succ_pos _, hx, fun j hj hji => absurd hji (Nat.not_lt_zero j)⟩
      · rintro ⟨h, hp, hmin⟩
        cases i with
        | zero => rfl
        | succ n =>
          have h0 := hmin 0 (Nat.succ_pos _) (Nat.succ_pos n)
          simp only [List.get] at h0
          rw [hx] at h0
          cases h0
    · rw [if_neg hx, List.findIdx?_start_succ]
      constructor
      · intro h
        rcases Option.map_eq_some'.1 h with ⟨k, hk, rfl⟩
        rcases (ih k).1 hk with ⟨hkl, hpk, hkmin⟩
        refine ⟨Nat.succ_lt_succ hkl, ?_, ?_⟩
        · simpa using hpk
        · intro j hj hji
          cases j with
          | zero => simpa using hx
          | succ m =>
            have hm : m < xs.length := Nat.lt_of_succ_lt_succ hj
            have := hkmin m hm (by omega)
            simpa using this
      · rintro ⟨h, hp, hmin⟩
        cases i with
        | zero =>
          simp only [List.get] at hp
          exact absurd hp hx
        | succ n =>
          have hn : n < xs.length := Nat.lt_of_succ_lt_succ h
          have hfind : xs.findIdx? p = some n := by
            refine (ih n).2 ⟨hn, by simpa using hp, ?_⟩
            intro j hj hji
            have := hmin (j + 1) (Nat.succ_lt_succ hj) (by omega)
            simpa using this
          rw [hfind]
          rfl

/-- Claim C6, amended: the resolver returns the position of the first
column, in column order, whose cleaned upper-cased label (stripped, with
apostrophes removed) contains all keywords of at least one keyword-set;
column order, not keyword-set order, takes precedence; it returns none
exactly when no column matches any keyword-set. -/
theorem c6_resolver_amended (cols : List (List Char))
    (patterns : List (List (List Char))) :
    (∀ i, findJotCol cols patterns = some i ↔
      ∃ h : i < cols.length,
        colMatchesAny (cols.get ⟨i, h⟩) patterns = true ∧
        ∀ j (hj : j < cols.length), j < i →
          colMatchesAny (cols.get ⟨j, hj⟩) patterns = false) ∧
    (findJotCol cols patterns = none ↔
      ∀ col ∈ cols, colMatchesAny col patterns = false) := by
  constructor
  · intro i
    exact findIdx?_first_iff (fun col => colMatchesAny col patterns) cols i
  · exact List.findIdx?_eq_none_iff

/-- Witness for the amended claim C6 at a concrete two-column table. -/
theorem c6_resolver_amended_witness :
    findJotCol ["BB".data, "AA".data] [["AA".data], ["BB".data]] = some 0 ↔
      ∃ h : 0 < (["BB".data, "AA".data] : List (List Char)).length,
        colMatchesAny ((["BB".data, "AA".data] : List (List Char)).get ⟨0, h⟩)
            [["AA".data], ["BB".data]] = true ∧
        ∀ j (hj : j < (["BB".data, "AA".data] : List (List Char)).length),
          j < 0 →
          colMatchesAny ((["BB".data, "AA".data] : List (List Char)).get ⟨j, hj⟩)
            [["AA".data], ["BB".data]] = false :=
  (c6_resolver_amended ["BB".data, "AA".data] [["AA".data], ["BB".data]]).1 0

/-! ## ISWC cleaning pipeline (app.py, process_curve_files) -/

/-- Exclusion token list shared by app.py and utils.py. -/
def EXCLUSIONS_LIST : List (List Char) :=
  ["REQUEST FROM BMI".data, "NOT ELIGIBLE".data, "NRY".data, "NRYI".data,
   "YTO".data, "OJ".data]

/-- Model of apply_universal_filter from app.py: a string containing any
exclusion token (case-insensitively) becomes None; every other value
passes through. -/
def apply_universal_filter (v : PyVal) : PyVal :=
  match v with
  | .str s =>
    if EXCLUSIONS_LIST.any (fun e => containsSeq e (toUpperStr s)) then
      .pyNone
    else .str s
  | _ => v

/-- Model of is_multiline from app.py: a string containing a newline or a
carriage return. -/
def is_multiline (v : PyVal) : Bool :=
  match v with
  | .str s => s.any (fun c => c == '\n' || c == '\r')
  | _ => false

/-- The ISWC column pipeline of process_curve_files, lines 185 to 195 of
app.py: multi-line values become None, then the universal exclusion
filter runs, then any value that is not a string of raw length at most
15 becomes None. -/
def iswcClean (v : PyVal) : PyVal :=
  let v1 := if is_multiline v then .pyNone else v
  let v2 := apply_universal_filter v1
  match v2 with
  | .str s => if s.length ≤ 15 then .str s else .pyNone
  | _ => .pyNone

theorem iswcClean_str (s : List Char) :
    iswcClean (.str s) =
      if is_multiline (.str s) then .pyNone
      else if EXCLUSIONS_LIST.any (fun e => containsSeq e (toUpperStr s)) then
        .pyNone
      else if s.length ≤ 15 then .str s else .pyNone := by
  by_cases hml : is_multiline (.str s)
  · simp [iswcClean, hml, apply_universal_filter]
  · by_cases hex : EXCLUSIONS_LIST.any (fun e => containsSeq e (toUpperStr s)) <;>
      simp [iswcClean, hml, apply_universal_filter, hex]

/-- Claim C7 fails on the code: the length gate tests the raw, untrimmed
string length.  The sixteen-character value consisting of ABCDE followed
by eleven spaces is single-line, passes the exclusion filter, and has
trimmed length five, yet the code drops it because its raw length
exceeds fifteen. -/
theorem c7_counterexample :
    is_multiline (.str ("ABCDE".data ++ List.replicate 11 ' ')) = false ∧
    (pyStrip ("ABCDE".data ++ List.replicate 11 ' ')).length ≤ 15 ∧
    apply_universal_filter (.str ("ABCDE".data ++ List.replicate 11 ' ')) =
      .str ("ABCDE".data ++ List.replicate 11 ' ') ∧
    iswcClean (.str ("ABCDE".data ++ List.replicate 11 ' ')) = .pyNone := by
  refine ⟨by decide, by decide, by decide, ?_⟩
  rw [iswcClean_str]
  decide

/-- Claim C7, amended: a string ISWC value is dropped (left empty, never
truncated) whenever it is multi-line, or its raw single-line length
(whitespace included, no trimming) exceeds 15 characters, or it contains
an exclusion token; otherwise it is written through unchanged. -/
theorem c7_iswc_gate_amended (s : List Char) :
    ((is_multiline (.str s) = true ∨ 15 < s.length) →
      iswcClean (.str s) = .pyNone) ∧
    ((∃ e ∈ EXCLUSIONS_LIST, containsSeq e (toUpperStr s) = true) →
      iswcClean (.str s) = .pyNone) ∧
    (is_multiline (.str s) = false → s.length ≤ 15 →
      apply_universal_filter (.str s) = .str s →
      iswcClean (.str s) = .str s) := by
  refine ⟨?_, ?_, ?_⟩
  · rintro (hml | hlen)
    · rw [iswcClean_str, if_pos hml]
    · rw [iswcClean_str]
      split
      · rfl
      · split
        · rfl
        · rw [if_neg (by omega)]
  · intro hex
    rw [iswcClean_str]
    split
    · rfl
    · rw [if_pos (List.any_eq_true.2 hex)]
  · intro hml hlen hfil
    have hex : EXCLUSIONS_LIST.any (fun e => containsSeq e (toUpperStr s)) = false := by
      by_contra hc
      rw [Bool.not_eq_false] at hc
      rw [apply_universal_filter] at hfil
      simp only [hc, if_true] at hfil
      cases hfil
    rw [iswcClean_str, if_neg (by simp [hml]), hex, if_neg (by simp),
      if_pos hlen]

/-- Witness for the amended claim C7 at a short single-line value. -/
theorem c7_iswc_gate_amended_witness :
    (is_multiline (.str "T1234".data) = false ∧
     ("T1234".data : List Char).length ≤ 15 ∧
     apply_universal_filter (.str "T1234".data) = .str "T1234".data) ∧
    iswcClean (.str "T1234".data) = .str "T1234".data :=
  ⟨⟨by decide, by decide, by decide⟩,
    (c7_iswc_gate_amended "T1234".data).2.2 (by decide) (by decide) (by decide)⟩

/-! ## Sheet location and the fatal-error path (step2.py) -/

/-- Model of _find_sheet_name from step2.py: scan sheet names in order;
in exact mode the upper-cased name must equal the upper-cased first
keyword, otherwise any keyword contained in the upper-cased name
suffices. -/
def findSheetName (names : List (List Char)) (keywords : List (List Char))
    (exact : Bool) : Option (List Char) :=
  names.find? (fun name =>
    let nU := toUpperStr name
    if exact then
      match keywords with
      | [] => false
      | k :: _ => nU == toUpperStr k
    else
      keywords.any (fun k => containsSeq k nU))

/-- Error message raised when the works sheet is missing. -/
def errWorks : List Char :=
  "Curve file: ".data ++ '\'' :: "Works".data ++ '\'' :: " sheet not found".data

/-- Error message raised when the alternate-titles sheet is missing. -/
def errAlt : List Char :=
  "Curve file: ".data ++ '\'' :: "Alternate Titles".data ++
    '\'' :: " sheet not found".data

/-- Error message raised when the IP Chain sheet is missing. -/
def errIp : List Char :=
  "Curve file: ".data ++ '\'' :: "IP Chain".data ++
    '\'' :: " sheet not found".data

/-- Formatting applied by the top-level exception handler of
process_alternate_titles to a raised ValueError. -/
def pyFailMsg (e : List Char) : List Char :=
  "Processing Failed in step2.py: ValueError: ".data ++ e

/-- Sheet-location stage of process_alternate_titles: the three required
sheets are looked up in order (works by substring WORK, alternate titles
by substring ALTERNATE, IP Chain by exact name), and the first missing
one raises a ValueError naming it. -/
def step2LocateSheets (names : List (List Char)) :
    Except (List Char) (List Char × List Char × List Char) :=
  match findSheetName names ["WORK".data] false with
  | none => .error errWorks
  | some w =>
    match findSheetName names ["ALTERNATE".data] false with
    | none => .error errAlt
    | some a =>
      match findSheetName names ["IP Chain".data] true with
      | none => .error errIp
      | some i => .ok (w, a, i)

/-- Run of the step2 engine on a curve workbook, abstracted over the
already-extracted per-work writer lists: locate the three required
sheets (any failure is caught by the top-level handler and returned as a
formatted error string, with no output produced), then emit the chain
rows of every matched work in order. -/
def step2Run (names : List (List Char)) (works : List (List WriterRec)) :
    Except (List Char) (List ChainRow) :=
  match step2LocateSheets names with
  | .error e => .error (pyFailMsg e)
  | .ok _ => .ok (works.map chainRows).flatten

theorem findSheetName_sub_none (names : List (List Char))
    (kws : List (List Char))
    (h : ∀ n ∈ names, kws.any (fun k => containsSeq k (toUpperStr n)) = false) :
    findSheetName names kws false = none := by
  apply List.find?_eq_none.2
  intro n hn
  simpa using h n hn

theorem findSheetName_sub_some (names : List (List Char))
    (kws : List (List Char))
    (h : ∃ n ∈ names, kws.any (fun k => containsSeq k (toUpperStr n)) = true) :
    ∃ w, findSheetName names kws false = some w := by
  rw [← Option.isSome_iff_exists]
  rw [findSheetName]
  rcases h with ⟨n, hn, hk⟩
  exact List.find?_isSome.2 ⟨n, hn, by simpa using hk⟩

theorem findSheetName_exact_none (names : List (List Char)) (k : List Char)
    (h : ∀ n ∈ names, (toUpperStr n == toUpperStr k) = false) :
    findSheetName names [k] true = none := by
  apply List.find?_eq_none.2
  intro n hn
  simpa using h n hn

/-- Claim C8: when a required destination sheet is absent (no sheet name
containing WORK case-insensitively, none containing ALTERNATE, or none
equal to IP Chain up to letter case), the whole run returns a single
formatted error string naming the missing sheet instead of an output,
the first missing sheet in checking order being the one reported. -/
theorem c8_missing_sheet_fatal (names : List (List Char))
    (works : List (List WriterRec)) :
    ((∀ n ∈ names, containsSeq "WORK".data (toUpperStr n) = false) →
      step2Run names works = .error (pyFailMsg errWorks)) ∧
    ((∃ n ∈ names, containsSeq "WORK".data (toUpperStr n) = true) →
     (∀ n ∈ names, containsSeq "ALTERNATE".data (toUpperStr n) = false) →
      step2Run names works = .error (pyFailMsg errAlt)) ∧
    ((∃ n ∈ names, containsSeq "WORK".data (toUpperStr n) = true) →
     (∃ n ∈ names, containsSeq "ALTERNATE".data (toUpperStr n) = true) →
     (∀ n ∈ names, (toUpperStr n == "IP CHAIN".data) = false) →
      step2Run names works = .error (pyFailMsg errIp)) := by
  refine ⟨?_, ?_, ?_⟩
  · intro h
    have h1 : findSheetName names ["WORK".data] false = none :=
      findSheetName_sub_none _ _ (by intro n hn; simpa using h n hn)
    rw [step2Run, step2LocateSheets, h1]
  · intro hw ha
    obtain ⟨w, hw1⟩ :=
      findSheetName_sub_some names ["WORK".data]
        (by rcases hw with ⟨n, hn, hk⟩; exact ⟨n, hn, by simpa using hk⟩)
    have h2 : findSheetName names ["ALTERNATE".data] false = none :=
      findSheetName_sub_none _ _ (by intro n hn; simpa using ha n hn)
    rw [step2Run, step2LocateSheets, hw1, h2]
  · intro hw ha hip
    obtain ⟨w, hw1⟩ :=
      findSheetName_sub_some names ["WORK".data]
        (by rcases hw with ⟨n, hn, hk⟩; exact ⟨n, hn, by simpa using hk⟩)
    obtain ⟨a, ha1⟩ :=
      findSheetName_sub_some names ["ALTERNATE".data]
        (by rcases ha with ⟨n, hn, hk⟩; exact ⟨n, hn, by simpa using hk⟩)
    have h3 : findSheetName names ["IP Chain".data] true = none := by
      apply findSheetName_exact_none
      intro n hn
      have : toUpperStr "IP Chain".data = "IP CHAIN".data := by decide
      rw [this]
      exact hip n hn
    rw [step2Run, step2LocateSheets, hw1, ha1, h3]

/-- Witness for claim C8 at a workbook with a single unrelated sheet. -/
theorem c8_missing_sheet_fatal_witness :
    (∀ n ∈ (["Sheet1".data] : List (List Char)),
      containsSeq "WORK".data (toUpperStr n) = false) ∧
    step2Run ["Sheet1".data] [] = .error (pyFailMsg errWorks) :=
  ⟨by decide, (c8_missing_sheet_fatal ["Sheet1".data] []).1 (by decide)⟩

/-! ## Notes aggregation (app.py combine_notes_row, utils.py
generate_notes_content) -/

/-- Model of pandas notna restricted to scalars: None and NaN are the
only non-values (the code combines pd.notna with an explicit None
check, which our single test covers). -/
def pdNotna : PyVal → Bool
  | .pyNone => false
  | .nan => false
  | _ => true

/-- Model of Python str.split with no separator: the maximal
whitespace-free words of a string, in order, empty words dropped.  The
right fold starts a fresh (empty) word at each whitespace character and
extends the current word at each other character; empty words are
filtered out at the end. -/
def wordsOf (s : List Char) : List (List Char) :=
  (s.foldr
    (fun c acc =>
      if isPySpace c then [] :: acc
      else
        match acc with
        | [] => [[c]]
        | w :: ws => (c :: w) :: ws)
    []).filter (fun w => !w.isEmpty)

/-- Whitespace normalization applied to each notes value: split into
words and rejoin with single spaces. -/
def normalizeWs (s : List Char) : List Char :=
  List.intercalate [' '] (wordsOf s)

/-- Loop body of combine_notes_row from app.py for one source column:
look the column up in the row, apply the universal exclusion filter to
the ISWC column only, stringify and trim, skip empty values, prefix the
configured columns with their label, normalize whitespace. -/
def combine_notes_entry (prefixCols : List (List Char))
    (row : List (List Char × PyVal)) (col : List Char) : Option (List Char) :=
  match row.lookup col with
  | none => none
  | some value =>
    let value := if col == "ISWC".data then apply_universal_filter value
      else value
    let valueStr := if pdNotna value then pyStrip (pyStrOf value) else []
    if valueStr.isEmpty then none
    else
      let pre := if prefixCols.contains col then col ++ ": ".data else []
      let toAdd := pre ++ normalizeWs valueStr
      if toAdd.isEmpty then none else some toAdd

/-- Model of combine_notes_row from app.py: the prepared values of the
source columns, joined with single spaces, trimmed. -/
def combine_notes_row (srcCols prefixCols : List (List Char))
    (row : List (List Char × PyVal)) : List Char :=
  pyStrip (List.intercalate [' ']
    (srcCols.filterMap (combine_notes_entry prefixCols row)))

/-- In-line ISWC treatment of generate_notes_content from utils.py: a
string value containing an exclusion token becomes None, anything else
passes through (the isinstance check restricts the test to strings). -/
def utils_iswc_filter (value : PyVal) : PyVal :=
  match value with
  | .str s =>
    if EXCLUSIONS_LIST.any (fun e => containsSeq e (toUpperStr s)) then
      .pyNone
    else .str s
  | _ => value

/-- Loop body of generate_notes_content from utils.py for one notes
column: look the column up, drop string ISWC values containing an
exclusion token, stringify and trim, skip empty values, always prefix
with the column label, normalize whitespace. -/
def generate_notes_entry (row : List (List Char × PyVal))
    (col : List Char) : Option (List Char) :=
  match row.lookup col with
  | none => none
  | some value =>
    let value := if col == "ISWC".data then utils_iswc_filter value
      else value
    let valueStr := if pdNotna value then pyStrip (pyStrOf value) else []
    if valueStr.isEmpty then none
    else some (col ++ ": ".data ++ normalizeWs valueStr)

/-- Model of generate_notes_content from utils.py: the prepared values
of the notes columns, joined with blank lines, trimmed. -/
def generate_notes_content (notesColumns : List (List Char))
    (row : List (List Char × PyVal)) : List Char :=
  pyStrip (List.intercalate ['\n', '\n']
    (notesColumns.filterMap (generate_notes_entry row)))

/-- Dynamic column finder shared by app.py (find_col_name inside
process_curve_files) and utils.py (the identical local copy inside
get_notes_config): the writers column, with the fixed fallback name. -/
def appWritersCol (jotCols : List (List Char)) : List Char :=
  (find_col_name jotCols ["Writers".data, "Composer".data]).getD
    "Writers (A) - Author (C) - Composer".data

/-- The publishers column, with the fixed fallback name. -/
def appPublishersCol (jotCols : List (List Char)) : List Char :=
  (find_col_name jotCols ["Publishers".data, "Names".data]).getD
    ("Publishers".data ++ '\'' :: " Names".data)

/-- The shares column, with the fixed fallback name. -/
def appSharesCol (jotCols : List (List Char)) : List Char :=
  (find_col_name jotCols ["Shares".data]).getD "Shares".data

/-- The notes source columns of app.py (NOTES_SOURCE_COLUMNS). -/
def appNotesSourceColumns (jotCols : List (List Char)) : List (List Char) :=
  ["EEP Master Catalog Number".data, "ISWC".data,
   "PORTAL LINK TO SONG - MULTI LINE".data,
   appWritersCol jotCols, appPublishersCol jotCols, appSharesCol jotCols,
   "USA TEAM NOTES".data, "GLOBAL TEAM NOTES".data]

/-- The notes prefix columns of app.py (NOTES_PREFIX_COLUMNS). -/
def appNotesPrefixColumns (jotCols : List (List Char)) : List (List Char) :=
  [appWritersCol jotCols, appPublishersCol jotCols, appSharesCol jotCols]

/-- The notes configuration of utils.py (get_notes_config). -/
def get_notes_config (jotCols : List (List Char)) : List (List Char) :=
  ["EEP Master Catalog Number".data,
   "Labeled Details for Portal & YTT System".data,
   "PORTAL LINK TO SONG - MULTI LINE".data, "Release Link".data,
   "YOUTUBE TEAM".data, "ISWC".data, "Recording ISRC".data, "Title".data,
   "Artist(s)".data, "Genre".data,
   appWritersCol jotCols, appPublishersCol jotCols, appSharesCol jotCols,
   "Recording Label Name".data, "Recording Release Date (CWR)".data,
   "Recording Title".data, "Album UPC".data,
   "Instrumental or Riddim Title (If Any)".data,
   "BMI WORK #".data, "ASCAP WORK #".data, "USAMECH #".data,
   "MRCODE # / SDXCODE #".data, "TUNECODE #".data, "SOCAN #".data,
   "MAIN ID JC #".data, "CANMECH #".data, "SUISA #".data,
   "USA TEAM NOTES".data, "GLOBAL TEAM NOTES".data,
   "Youtube Video Link (All Types)".data]

/-- Claim C10 fails on the code: on a row carrying only an ISWC value,
app.py produces the bare value (ISWC is not a prefix column there and
values are joined with spaces) while utils.py produces the value
prefixed with its column label, so the two outputs differ. -/
theorem c10_counterexample :
    combine_notes_row (appNotesSourceColumns ["ISWC".data])
        (appNotesPrefixColumns ["ISWC".data])
        [("ISWC".data, .str "T123".data)] ≠
      generate_notes_content (get_notes_config ["ISWC".data])
        [("ISWC".data, .str "T123".data)] := by
  decide

theorem pyTrimRight_prefix (s : List Char) : pyTrimRight s <+: s := by
  have h : s.reverse.dropWhile isPySpace <:+ s.reverse :=
    List.dropWhile_suffix _
  have h2 := h.reverse
  simpa [pyTrimRight] using h2

theorem pyStrip_head_not_ws (s : List Char) (c : Char)
    (hc : (pyStrip s).head? = some c) : isPySpace c = false := by
  obtain ⟨r, hr⟩ := pyTrimRight_prefix (pyTrimLeft s)
  have hh : (pyTrimLeft s).head? = some c := by
    rw [← hr]
    cases hps : pyTrimRight (pyTrimLeft s) with
    | nil =>
      rw [show pyStrip s = pyTrimRight (pyTrimLeft s) from rfl, hps] at hc
      cases hc
    | cons a t =>
      rw [show pyStrip s = pyTrimRight (pyTrimLeft s) from rfl, hps] at hc
      rw [List.cons_append, List.head?_cons]
      rw [List.head?_cons] at hc
      exact hc
  have hmatch := List.head?_dropWhile_not isPySpace s
  rw [show (s.dropWhile isPySpace).head? = some c from hh] at hmatch
  exact hmatch

theorem wordsOf_mem_ne_nil (s : List Char) :
    ∀ w ∈ wordsOf s, w.isEmpty = false := by
  intro w hw
  have := (List.mem_filter.1 hw).2
  simpa using this

theorem wordsOf_cons_ne_nil (c : Char) (rest : List Char)
    (hc : isPySpace c = false) : wordsOf (c :: rest) ≠ [] := by
  unfold wordsOf
  rw [List.foldr_cons, if_neg (by simp [hc])]
  cases hacc : (rest.foldr
      (fun c acc =>
        if isPySpace c then [] :: acc
        else
          match acc with
          | [] => [[c]]
          | w :: ws => (c :: w) :: ws)
      []) with
  | nil => simp
  | cons w ws => simp

theorem intercalate_ne_nil (sep : List Char) (l : List (List Char))
    (hl : l ≠ []) (hw : ∀ w ∈ l, w.isEmpty = false) :
    List.intercalate sep l ≠ [] := by
  cases l with
  | nil => exact absurd rfl hl
  | cons x xs =>
    have hx : x ≠ [] := by
      have := hw x (List.Mem.head _)
      simpa [List.isEmpty_iff] using this
    cases xs with
    | nil => simpa [List.intercalate] using hx
    | cons y ys =>
      simp only [List.intercalate, List.intersperse_cons₂, List.flatten_cons]
      intro hcon
      exact hx (List.append_eq_nil.1 hcon).1

theorem normalizeWs_strip_ne_nil (t : List Char)
    (h : (pyStrip t).isEmpty = false) : normalizeWs (pyStrip t) ≠ [] := by
  cases hs : pyStrip t with
  | nil => rw [hs] at h; cases h
  | cons c rest =>
    have hc : isPySpace c = false :=
      pyStrip_head_not_ws t c (by rw [hs]; rfl)
    rw [normalizeWs]
    exact intercalate_ne_nil _ _ (wordsOf_cons_ne_nil c rest hc)
      (wordsOf_mem_ne_nil _)

/-- Shared value selection underlying both notes implementations: look
the column up, filter string ISWC values by the exclusion tokens,
stringify and trim, skip values that end up empty, and normalize
whitespace. -/
def notes_selected_value (row : List (List Char × PyVal))
    (col : List Char) : Option (List Char) :=
  match row.lookup col with
  | none => none
  | some value =>
    let value := if col == "ISWC".data then apply_universal_filter value
      else value
    let valueStr := if pdNotna value then pyStrip (pyStrOf value) else []
    if valueStr.isEmpty then none
    else some (normalizeWs valueStr)

theorem combine_notes_entry_eq (prefixCols : List (List Char))
    (row : List (List Char × PyVal)) (col : List Char) :
    combine_notes_entry prefixCols row col =
      (notes_selected_value row col).map
        (fun v =>
          (if prefixCols.contains col then col ++ ": ".data else []) ++ v) := by
  unfold combine_notes_entry notes_selected_value
  cases hl : row.lookup col with
  | none => rfl
  | some value =>
    simp only []
    set v2 := if col == "ISWC".data then apply_universal_filter value
      else value with hv2
    by_cases hn : pdNotna v2
    · by_cases he : (pyStrip (pyStrOf v2)).isEmpty
      · simp [hn, he]
      · have hne := normalizeWs_strip_ne_nil (pyStrOf v2) (by simpa using he)
        simp [hn, he, hne]
    · simp [hn]

theorem generate_notes_entry_eq (row : List (List Char × PyVal))
    (col : List Char) :
    generate_notes_entry row col =
      (notes_selected_value row col).map
        (fun v => col ++ ": ".data ++ v) := by
  unfold generate_notes_entry notes_selected_value
  cases hl : row.lookup col with
  | none => rfl
  | some value =>
    simp only []
    have hval : utils_iswc_filter value = apply_universal_filter value := by
      cases value <;> rfl
    rw [hval]
    set v2 := if col == "ISWC".data then apply_universal_filter value
      else value with hv2
    by_cases hn : pdNotna v2
    · by_cases he : (pyStrip (pyStrOf v2)).isEmpty
      · simp [hn, he]
      · simp [hn, he]
    · simp [hn]

/-- Claim C10, amended: the two notes implementations select exactly the
same values from the same row given the same column list (same lookup,
same ISWC exclusion filtering, same trimming, same skip-empty rule, same
whitespace normalization); their outputs differ only in presentation:
app.py prefixes only the configured writers, publishers and shares
columns and joins with single spaces, while utils.py prefixes every
value with its column label and joins with blank lines; in addition,
their production configurations differ (8 source columns in app.py,
30 in utils.py), so on the same row the two output strings need not be
equal. -/
theorem c10_notes_agreement_amended (cols prefixCols : List (List Char))
    (row : List (List Char × PyVal)) :
    combine_notes_row cols prefixCols row =
      pyStrip (List.intercalate [' ']
        (cols.filterMap (fun col => (notes_selected_value row col).map
          (fun v =>
            (if prefixCols.contains col then col ++ ": ".data else [])
              ++ v)))) ∧
    generate_notes_content cols row =
      pyStrip (List.intercalate ['\n', '\n']
        (cols.filterMap (fun col => (notes_selected_value row col).map
          (fun v => col ++ ": ".data ++ v)))) := by
  constructor
  · unfold combine_notes_row
    rw [List.filterMap_congr
      (fun col _ => combine_notes_entry_eq prefixCols row col)]
  · unfold generate_notes_content
    rw [List.filterMap_congr (fun col _ => generate_notes_entry_eq row col)]

/-- Witness for the amended claim C10 at the counterexample input. -/
theorem c10_notes_agreement_amended_witness :
    combine_notes_row (appNotesSourceColumns ["ISWC".data])
        (appNotesPrefixColumns ["ISWC".data])
        [("ISWC".data, .str "T123".data)] =
      pyStrip (List.intercalate [' ']
        ((appNotesSourceColumns ["ISWC".data]).filterMap
          (fun col => (notes_selected_value
              [("ISWC".data, .str "T123".data)] col).map
            (fun v =>
              (if (appNotesPrefixColumns ["ISWC".data]).contains col then
                col ++ ": ".data
               else []) ++ v)))) :=
  (c10_notes_agreement_amended (appNotesSourceColumns ["ISWC".data])
    (appNotesPrefixColumns ["ISWC".data])
    [("ISWC".data, .str "T123".data)]).1

/-! ## Character-level facts for the normalizer -/

theorem toNat_ofNat_small (n : Nat) (h : n < 128) : (Char.ofNat n).toNat = n := by
  have hv : n.isValidChar := Or.inl (by omega)
  rw [Char.ofNat, dif_pos hv]
  rfl

theorem toLower_eq (c : Char) :
    Char.toLower c =
      if 65 ≤ c.toNat ∧ c.toNat ≤ 90 then Char.ofNat (c.toNat + 32) else c := rfl

theorem toNat_toLower (c : Char) :
    (Char.toLower c).toNat =
      if 65 ≤ c.toNat ∧ c.toNat ≤ 90 then c.toNat + 32 else c.toNat := by
  rw [toLower_eq]
  by_cases h : 65 ≤ c.toNat ∧ c.toNat ≤ 90
  · rw [if_pos h, if_pos h, toNat_ofNat_small _ (by omega)]
  · rw [if_neg h, if_neg h]

theorem toLower_toLower (c : Char) :
    Char.toLower (Char.toLower c) = Char.toLower c := by
  rw [toLower_eq (Char.toLower c)]
  rw [if_neg]
  rw [toNat_toLower]
  by_cases h : 65 ≤ c.toNat ∧ c.toNat ≤ 90 <;> simp [h] <;> omega

theorem isPySpace_iff (c : Char) :
    isPySpace c = true ↔
      c.toNat = 32 ∨ c.toNat = 9 ∨ c.toNat = 10 ∨ c.toNat = 13 ∨
      c.toNat = 11 ∨ c.toNat = 12 := by
  simp [isPySpace, or_assoc]

theorem isPySpace_toLower (c : Char) :
    isPySpace (Char.toLower c) = isPySpace c := by
  by_cases h : 65 ≤ c.toNat ∧ c.toNat ≤ 90
  · have h1 : isPySpace c = false := by
      rw [← Bool.not_eq_true, isPySpace_iff]
      omega
    have h2 : isPySpace (Char.toLower c) = false := by
      rw [← Bool.not_eq_true, isPySpace_iff, toNat_toLower, if_pos h]
      omega
    rw [h1, h2]
  · rw [toLower_eq, if_neg h]

theorem isDigit_iff (c : Char) :
    c.isDigit = true ↔ 48 ≤ c.toNat ∧ c.toNat ≤ 57 := by
  simp [Char.isDigit, Char.le_def, UInt32.le_def, BitVec.le_def, Char.toNat,
    UInt32.toNat]

theorem toLower_of_isDigit (c : Char) (h : c.isDigit = true) :
    Char.toLower c = c := by
  rw [toLower_eq, if_neg]
  have := (isDigit_iff c).1 h
  omega

theorem not_isPySpace_of_isDigit (c : Char) (h : c.isDigit = true) :
    isPySpace c = false := by
  rw [← Bool.not_eq_true, isPySpace_iff]
  have := (isDigit_iff c).1 h
  omega

/-! ## Trim and collapse lemmas -/

theorem dropWhile_head_false {p : Char → Bool} (l : List Char)
    (h : ∀ c, l.head? = some c → p c = false) : l.dropWhile p = l := by
  cases l with
  | nil => rfl
  | cons c t =>
    rw [List.dropWhile_cons, if_neg]
    simp [h c rfl]

theorem dropWhile_append_all {p : Char → Bool} (a b : List Char)
    (h : ∀ c ∈ a, p c = true) : (a ++ b).dropWhile p = b.dropWhile p := by
  induction a with
  | nil => rfl
  | cons c t ih =>
    rw [List.cons_append, List.dropWhile_cons, if_pos (h c (.head _))]
    exact ih (fun c hc => h c (.tail _ hc))

theorem dropWhile_all {p : Char → Bool} (l : List Char)
    (h : ∀ c ∈ l, p c = true) : l.dropWhile p = [] := by
  have := dropWhile_append_all l [] h
  simpa using this

theorem pyTrimLeft_eq_self (s : List Char)
    (h : ∀ c, s.head? = some c → isPySpace c = false) : pyTrimLeft s = s :=
  dropWhile_head_false s h

theorem pyTrimRight_eq_self (s : List Char)
    (h : ∀ c, s.getLast? = some c → isPySpace c = false) :
    pyTrimRight s = s := by
  rw [pyTrimRight, dropWhile_head_false s.reverse
    (fun c hc => h c (by simpa using hc)), List.reverse_reverse]

theorem pyTrimLeft_head_not_ws (s : List Char) (c : Char)
    (hc : (pyTrimLeft s).head? = some c) : isPySpace c = false := by
  have := List.head?_dropWhile_not isPySpace s
  rw [show (s.dropWhile isPySpace).head? = some c from hc] at this
  exact this

theorem pyTrimRight_getLast_not_ws (s : List Char) (c : Char)
    (hc : (pyTrimRight s).getLast? = some c) : isPySpace c = false := by
  have hh : (s.reverse.dropWhile isPySpace).head? = some c := by
    rw [pyTrimRight, List.getLast?_reverse] at hc
    exact hc
  have := List.head?_dropWhile_not isPySpace s.reverse
  rw [hh] at this
  exact this

theorem pyStrip_getLast_not_ws (s : List Char) (c : Char)
    (hc : (pyStrip s).getLast? = some c) : isPySpace c = false :=
  pyTrimRight_getLast_not_ws (pyTrimLeft s) c hc

theorem collapseAux_no_ws (l : List Char) (b : Bool)
    (h : ∀ c ∈ l, isPySpace c = false) : collapseAux b l = l := by
  induction l generalizing b with
  | nil => rfl
  | cons c t ih =>
    rw [collapseAux, if_neg (by simp [h c (.head _)])]
    rw [ih false (fun c hc => h c (.tail _ hc))]

theorem collapseAux_idem (l : List Char) (b : Bool) :
    collapseAux b (collapseAux b l) = collapseAux b l := by
  induction l generalizing b with
  | nil => rfl
  | cons c t ih =>
    by_cases hc : isPySpace c
    · cases b with
      | true =>
        rw [collapseAux, if_pos hc, if_pos rfl]
        exact ih true
      | false =>
        rw [collapseAux, if_pos hc, if_neg (by simp)]
        rw [collapseAux, if_pos (by decide), if_neg (by simp)]
        rw [ih true]
    · rw [collapseAux, if_neg (by simp [hc])]
      rw [collapseAux, if_neg (by simp [hc])]
      rw [ih false]

theorem collapseAux_mem (l : List Char) (b : Bool) (c : Char)
    (h : c ∈ collapseAux b l) : c = ' ' ∨ c ∈ l := by
  induction l generalizing b with
  | nil => cases h
  | cons d t ih =>
    by_cases hd : isPySpace d
    · cases b with
      | true =>
        rw [collapseAux, if_pos hd, if_pos rfl] at h
        rcases ih true h with h1 | h1
        · exact Or.inl h1
        · exact Or.inr (.tail _ h1)
      | false =>
        rw [collapseAux, if_pos hd, if_neg (by simp)] at h
        cases h with
        | head => exact Or.inl rfl
        | tail _ h =>
          rcases ih true h with h1 | h1
          · exact Or.inl h1
          · exact Or.inr (.tail _ h1)
    · rw [collapseAux, if_neg (by simp [hd])] at h
      cases h with
      | head => exact Or.inr (.head _)
      | tail _ h =>
        rcases ih false h with h1 | h1
        · exact Or.inl h1
        · exact Or.inr (.tail _ h1)

theorem collapseAux_cons_not_ws (c : Char) (t : List Char) (b : Bool)
    (hc : isPySpace c = false) :
    collapseAux b (c :: t) = c :: collapseAux false t := by
  rw [collapseAux, if_neg (by simp [hc])]

theorem collapseAux_getLast (l : List Char) (b : Bool)
    (h : ∀ c, l.getLast? = some c → isPySpace c = false) :
    (collapseAux b l).getLast? = l.getLast? := by
  induction l generalizing b with
  | nil => rfl
  | cons c t ih =>
    cases t with
    | nil =>
      have hc : isPySpace c = false := h c rfl
      rw [collapseAux_cons_not_ws c [] b hc]
      rfl
    | cons d t' =>
      have ht : ∀ e, (d :: t').getLast? = some e → isPySpace e = false := by
        intro e he
        exact h e (by rw [List.getLast?_cons_cons]; exact he)
      have htl : (collapseAux true (d :: t')).getLast? = (d :: t').getLast? :=
        ih true ht
      have hfl : (collapseAux false (d :: t')).getLast? = (d :: t').getLast? :=
        ih false ht
      have hne : (d :: t').getLast? ≠ none := by
        rw [Ne, List.getLast?_eq_none_iff]
        simp
      by_cases hc : isPySpace c
      · cases b with
        | true =>
          rw [collapseAux, if_pos hc, if_pos rfl, List.getLast?_cons_cons]
          exact htl
        | false =>
          rw [collapseAux, if_pos hc, if_neg (by simp)]
          cases hg : collapseAux true (d :: t') with
          | nil => rw [hg] at htl; exact absurd htl.symm hne
          | cons x xs =>
            rw [List.getLast?_cons_cons, ← hg, htl, List.getLast?_cons_cons]
      · rw [collapseAux_cons_not_ws c (d :: t') b (by simpa using hc)]
        cases hg : collapseAux false (d :: t') with
        | nil => rw [hg] at hfl; exact absurd hfl.symm hne
        | cons x xs =>
          rw [List.getLast?_cons_cons, ← hg, hfl, List.getLast?_cons_cons]

/-- State of the collapse worker after consuming a list: the
whitespace-status of the last character, or the incoming state for an
empty list. -/
def endWs (b : Bool) (l : List Char) : Bool :=
  l.foldl (fun _ c => isPySpace c) b

theorem endWs_cons (b : Bool) (c : Char) (l : List Char) :
    endWs b (c :: l) = endWs (isPySpace c) l := rfl

theorem collapseAux_append (a b : List Char) (st : Bool) :
    collapseAux st (a ++ b) =
      collapseAux st a ++ collapseAux (endWs st a) b := by
  induction a generalizing st with
  | nil => rfl
  | cons c t ih =>
    by_cases hc : isPySpace c
    · cases st with
      | true =>
        rw [List.cons_append, collapseAux, if_pos hc, if_pos rfl]
        rw [show collapseAux true (c :: t) = collapseAux true t from by
          rw [collapseAux, if_pos hc, if_pos rfl]]
        rw [endWs_cons, hc, ih true]
      | false =>
        rw [List.cons_append, collapseAux, if_pos hc, if_neg (by simp)]
        rw [show collapseAux false (c :: t) = ' ' :: collapseAux true t from by
          rw [collapseAux, if_pos hc, if_neg (by simp)]]
        rw [endWs_cons, hc, ih true, List.cons_append]
    · have hc' : isPySpace c = false := by simpa using hc
      rw [List.cons_append, collapseAux_cons_not_ws _ _ _ hc',
        collapseAux_cons_not_ws _ _ _ hc', endWs_cons, hc', ih false,
        List.cons_append]

theorem collapseAux_all_ws (w : List Char) (st : Bool)
    (h : ∀ c ∈ w, isPySpace c = true) :
    collapseAux st w =
      if w.isEmpty then [] else if st then [] else [' '] := by
  induction w generalizing st with
  | nil => cases st <;> rfl
  | cons c t ih =>
    have hc := h c (.head _)
    have ht : ∀ c ∈ t, isPySpace c = true := fun c hc => h c (.tail _ hc)
    have htt : collapseAux true t = [] := by
      rw [ih true ht]
      split <;> rfl
    cases st with
    | true =>
      rw [collapseAux, if_pos hc, if_pos rfl, htt]
      rfl
    | false =>
      rw [collapseAux, if_pos hc, if_neg (by simp), htt]
      rfl

theorem collapseAux_cons (b : Bool) (c : Char) (t : List Char) :
    collapseAux b (c :: t) =
      if isPySpace c then
        (if b then collapseAux true t else ' ' :: collapseAux true t)
      else c :: collapseAux false t := rfl

theorem collapseAux_ws_run (r t : List Char) (st : Bool)
    (hr : ∀ c ∈ r, isPySpace c = true) (hne : r ≠ []) :
    collapseAux st (r ++ t) = collapseAux st (' ' :: t) := by
  induction r generalizing st with
  | nil => exact absurd rfl hne
  | cons c r' ih =>
    have hc := hr c (.head _)
    have hr' : ∀ c ∈ r', isPySpace c = true := fun c hc => hr c (.tail _ hc)
    cases r' with
    | nil =>
      rw [List.cons_append, List.nil_append]
      cases st with
      | true =>
        rw [collapseAux_cons, if_pos hc, if_pos rfl]
        rw [collapseAux_cons, if_pos (by decide), if_pos rfl]
      | false =>
        rw [collapseAux_cons, if_pos hc, if_neg (by simp)]
        rw [collapseAux_cons, if_pos (by decide), if_neg (by simp)]
    | cons d r'' =>
      have step : collapseAux true ((d :: r'') ++ t) =
          collapseAux true (' ' :: t) := ih true hr' (by simp)
      have absorb : collapseAux true (' ' :: t) = collapseAux true t := by
        rw [collapseAux_cons, if_pos (by decide), if_pos rfl]
      cases st with
      | true =>
        rw [List.cons_append, collapseAux_cons, if_pos hc, if_pos rfl, step]
      | false =>
        rw [List.cons_append, collapseAux_cons, if_pos hc, if_neg (by simp),
          step, absorb, collapseAux_cons, if_pos (by decide),
          if_neg (by simp)]

theorem collapseAux_run_replace (a r b : List Char) (st : Bool)
    (hr : ∀ c ∈ r, isPySpace c = true) (hne : r ≠ []) :
    collapseAux st (a ++ r ++ b) = collapseAux st (a ++ ' ' :: b) := by
  induction a generalizing st with
  | nil =>
    rw [List.nil_append, List.nil_append]
    exact collapseAux_ws_run r b st hr hne
  | cons c a' ih =>
    by_cases hc : isPySpace c
    · cases st with
      | true =>
        simp only [List.cons_append]
        rw [collapseAux_cons, if_pos hc, if_pos rfl, collapseAux_cons,
          if_pos hc, if_pos rfl]
        exact ih true
      | false =>
        simp only [List.cons_append]
        rw [collapseAux_cons, if_pos hc, if_neg (by simp), collapseAux_cons,
          if_pos hc, if_neg (by simp), ih true]
    · have hc' : isPySpace c = false := by simpa using hc
      simp only [List.cons_append]
      rw [collapseAux_cons_not_ws _ _ _ hc',
        collapseAux_cons_not_ws _ _ _ hc', ih false]

theorem pyTrimLeft_collapseAux (l : List Char) (b : Bool) :
    pyTrimLeft (collapseAux b l) = collapseAux false (pyTrimLeft l) := by
  induction l generalizing b with
  | nil => rfl
  | cons c rest ih =>
    by_cases hc : isPySpace c
    · cases b with
      | true =>
        rw [collapseAux_cons, if_pos hc, if_pos rfl]
        rw [show pyTrimLeft (c :: rest) = pyTrimLeft rest from by
          rw [pyTrimLeft, List.dropWhile_cons, if_pos hc]; rfl]
        exact ih true
      | false =>
        rw [collapseAux_cons, if_pos hc, if_neg (by simp)]
        rw [show pyTrimLeft (' ' :: collapseAux true rest) =
            pyTrimLeft (collapseAux true rest) from by
          rw [pyTrimLeft, List.dropWhile_cons, if_pos (by decide)]; rfl]
        rw [show pyTrimLeft (c :: rest) = pyTrimLeft rest from by
          rw [pyTrimLeft, List.dropWhile_cons, if_pos hc]; rfl]
        exact ih true
    · have hc' : isPySpace c = false := by simpa using hc
      rw [collapseAux_cons_not_ws _ _ _ hc']
      rw [show pyTrimLeft (c :: collapseAux false rest) =
          c :: collapseAux false rest from by
        rw [pyTrimLeft, List.dropWhile_cons, if_neg (by simp [hc'])]]
      rw [show pyTrimLeft (c :: rest) = c :: rest from by
        rw [pyTrimLeft, List.dropWhile_cons, if_neg (by simp [hc'])]]
      rw [collapseAux_cons_not_ws _ _ _ hc']

theorem trimRight_decomp (l : List Char) :
    l = pyTrimRight l ++ (l.reverse.takeWhile isPySpace).reverse := by
  conv_lhs => rw [← List.reverse_reverse l,
    ← List.takeWhile_append_dropWhile (p := isPySpace) (l := l.reverse)]
  rw [List.reverse_append]
  rfl

theorem trimRight_ws_suffix (l : List Char) :
    ∀ c ∈ (l.reverse.takeWhile isPySpace).reverse, isPySpace c = true := by
  intro c hc
  rw [List.mem_reverse] at hc
  exact List.mem_takeWhile_imp hc

theorem pyTrimRight_append_space (u : List Char) :
    pyTrimRight (u ++ [' ']) = pyTrimRight u := by
  rw [pyTrimRight, pyTrimRight, List.reverse_append]
  rw [show ([' '] : List Char).reverse ++ u.reverse = ' ' :: u.reverse from rfl]
  rw [List.dropWhile_cons, if_pos (by decide)]

theorem pyTrimRight_collapseAux (l : List Char) (b : Bool) :
    pyTrimRight (collapseAux b l) = collapseAux b (pyTrimRight l) := by
  have hdecomp := trimRight_decomp l
  have hws := trimRight_ws_suffix l
  have htlast : ∀ c, (pyTrimRight l).getLast? = some c → isPySpace c = false :=
    fun c hc => pyTrimRight_getLast_not_ws l c hc
  have h1 : collapseAux b l =
      collapseAux b (pyTrimRight l) ++
        collapseAux (endWs b (pyTrimRight l))
          (l.reverse.takeWhile isPySpace).reverse := by
    conv_lhs => rw [hdecomp]
    exact collapseAux_append _ _ b
  have h2 : (collapseAux b (pyTrimRight l)).getLast? =
      (pyTrimRight l).getLast? := collapseAux_getLast _ b htlast
  have htr : pyTrimRight (collapseAux b (pyTrimRight l)) =
      collapseAux b (pyTrimRight l) :=
    pyTrimRight_eq_self _ (fun c hc => htlast c (h2 ▸ hc))
  have h3 := collapseAux_all_ws (l.reverse.takeWhile isPySpace).reverse
    (endWs b (pyTrimRight l)) hws
  rw [h1, h3]
  by_cases hwe : ((l.reverse.takeWhile isPySpace).reverse : List Char).isEmpty
  · rw [if_pos hwe, List.append_nil]
    exact htr
  · rw [if_neg hwe]
    by_cases hst : endWs b (pyTrimRight l)
    · rw [if_pos hst, List.append_nil]
      exact htr
    · rw [if_neg hst, pyTrimRight_append_space]
      exact htr

/-! ## Interaction of lower-casing with trimming and collapsing -/

theorem pyTrimLeft_toLowerStr (s : List Char) :
    pyTrimLeft (toLowerStr s) = toLowerStr (pyTrimLeft s) := by
  rw [pyTrimLeft, pyTrimLeft, toLowerStr, toLowerStr, List.dropWhile_map]
  have hfun : (isPySpace ∘ Char.toLower) = isPySpace :=
    funext (fun c => by simp [Function.comp, isPySpace_toLower])
  rw [hfun]

theorem pyTrimRight_toLowerStr (s : List Char) :
    pyTrimRight (toLowerStr s) = toLowerStr (pyTrimRight s) := by
  rw [pyTrimRight, pyTrimRight, toLowerStr, toLowerStr, ← List.map_reverse,
    List.dropWhile_map, ← List.map_reverse]
  have hfun : (isPySpace ∘ Char.toLower) = isPySpace :=
    funext (fun c => by simp [Function.comp, isPySpace_toLower])
  rw [hfun]

theorem pyStrip_toLowerStr (s : List Char) :
    pyStrip (toLowerStr s) = toLowerStr (pyStrip s) := by
  rw [pyStrip, pyStrip, pyTrimLeft_toLowerStr, pyTrimRight_toLowerStr]

theorem toLowerStr_toLowerStr (s : List Char) :
    toLowerStr (toLowerStr s) = toLowerStr s := by
  rw [toLowerStr, toLowerStr, List.map_map]
  apply List.map_congr_left
  intro c _
  simp [Function.comp, toLower_toLower]

theorem toLowerStr_fix (s : List Char) (h : ∀ c ∈ s, Char.toLower c = c) :
    toLowerStr s = s := by
  rw [toLowerStr]
  conv_rhs => rw [← List.map_id s]
  exact List.map_congr_left h

/-! ## Normal-form facts for the normalizer -/

theorem takeWhile_all {p : Char → Bool} (l : List Char)
    (h : ∀ c ∈ l, p c = true) : l.takeWhile p = l := by
  induction l with
  | nil => rfl
  | cons c t ih =>
    rw [List.takeWhile_cons, if_pos (h c (.head _))]
    rw [ih (fun c hc => h c (.tail _ hc))]

theorem take_takeWhile_length {p : Char → Bool} (l : List Char) :
    l.take (l.takeWhile p).length = l.takeWhile p := by
  induction l with
  | nil => rfl
  | cons c t ih =>
    rw [List.takeWhile_cons]
    by_cases hp : p c
    · rw [if_pos hp, List.length_cons, List.take_succ_cons, ih]
    · rw [if_neg hp, List.length_nil, List.take_zero]

theorem matches_decomp (u : List Char) (h : matchesNumDotZero u = true) :
    u = u.takeWhile Char.isDigit ++ ['.', '0'] ∧
      u.takeWhile Char.isDigit ≠ [] := by
  rw [matchesNumDotZero] at h
  simp only [Bool.and_eq_true, Bool.not_eq_true', beq_iff_eq] at h
  obtain ⟨h1, h2⟩ := h
  constructor
  · conv_lhs =>
      rw [← List.take_append_drop (u.takeWhile Char.isDigit).length u]
    rw [h2, take_takeWhile_length]
  · intro hn
    rw [hn] at h1
    cases h1

theorem matches_all_digits (t : List Char)
    (h : ∀ c ∈ t, c.isDigit = true) : matchesNumDotZero t = false := by
  rw [matchesNumDotZero]
  simp only [takeWhile_all t h, List.drop_length]
  simp

theorem matches_no_dot (t : List Char) (h : ∀ c ∈ t, c ≠ '.') :
    matchesNumDotZero t = false := by
  by_contra hm
  rw [Bool.not_eq_false] at hm
  obtain ⟨hdec, _⟩ := matches_decomp t hm
  have : ('.' : Char) ∈ t := by
    rw [hdec]
    exact List.mem_append_right _ (.head _)
  exact h '.' this rfl

theorem pyStrip_of_no_ws (t : List Char)
    (h : ∀ c ∈ t, isPySpace c = false) : pyStrip t = t := by
  rw [pyStrip, pyTrimLeft_eq_self t (fun c hc => h c (by
    cases t with
    | nil => cases hc
    | cons a b => rw [List.head?_cons] at hc; rw [← Option.some_inj.1 hc]; exact .head _))]
  exact pyTrimRight_eq_self t
    (fun c hc => h c (List.mem_of_getLast?_eq_some hc))

theorem pyStrNorm_eq (s : List Char) :
    pyStrNorm s =
      if matchesNumDotZero (collapseWs (toLowerStr (pyStrip s))) then
        (collapseWs (toLowerStr (pyStrip s))).take
          ((collapseWs (toLowerStr (pyStrip s))).length - 2)
      else collapseWs (toLowerStr (pyStrip s)) := rfl

theorem pyStrNorm_digitlike (t : List Char)
    (h : ∀ c ∈ t, c.isDigit = true ∨ c = '-' ∨ c = '.')
    (hm : matchesNumDotZero t = false) : pyStrNorm t = t := by
  have hnws : ∀ c ∈ t, isPySpace c = false := by
    intro c hc
    rcases h c hc with hd | rfl | rfl
    · exact not_isPySpace_of_isDigit c hd
    · decide
    · decide
  have hlow : ∀ c ∈ t, Char.toLower c = c := by
    intro c hc
    rcases h c hc with hd | rfl | rfl
    · exact toLower_of_isDigit c hd
    · decide
    · decide
  rw [pyStrNorm_eq, pyStrip_of_no_ws t hnws, toLowerStr_fix t hlow,
    show collapseWs t = t from collapseAux_no_ws t false hnws, if_neg (by simp [hm])]

theorem strNorm_core_canon (s : List Char) :
    pyStrip (collapseWs (toLowerStr (pyStrip s))) =
      collapseWs (toLowerStr (pyStrip s)) ∧
    toLowerStr (collapseWs (toLowerStr (pyStrip s))) =
      collapseWs (toLowerStr (pyStrip s)) ∧
    collapseWs (collapseWs (toLowerStr (pyStrip s))) =
      collapseWs (toLowerStr (pyStrip s)) := by
  have hhead : ∀ c, (toLowerStr (pyStrip s)).head? = some c →
      isPySpace c = false := by
    intro c hc
    rw [toLowerStr, List.head?_map] at hc
    cases hh : (pyStrip s).head? with
    | none => rw [hh] at hc; cases hc
    | some c0 =>
      rw [hh] at hc
      have : Char.toLower c0 = c := Option.some_inj.1 hc
      rw [← this, isPySpace_toLower]
      exact pyStrip_head_not_ws s c0 hh
  have hlast : ∀ c, (toLowerStr (pyStrip s)).getLast? = some c →
      isPySpace c = false := by
    intro c hc
    rw [toLowerStr, List.getLast?_map] at hc
    cases hh : (pyStrip s).getLast? with
    | none => rw [hh] at hc; cases hc
    | some c0 =>
      rw [hh] at hc
      have : Char.toLower c0 = c := Option.some_inj.1 hc
      rw [← this, isPySpace_toLower]
      exact pyStrip_getLast_not_ws s c0 hh
  refine ⟨?_, ?_, collapseAux_idem _ false⟩
  · have hh : ∀ c, (collapseWs (toLowerStr (pyStrip s))).head? = some c →
        isPySpace c = false := by
      intro c hc
      cases hs1 : toLowerStr (pyStrip s) with
      | nil => rw [collapseWs, hs1] at hc; cases hc
      | cons c0 t =>
        have hc0 : isPySpace c0 = false := hhead c0 (by rw [hs1]; rfl)
        rw [collapseWs, hs1, collapseAux_cons_not_ws _ _ _ hc0,
          List.head?_cons] at hc
        rw [← Option.some_inj.1 hc]
        exact hc0
    have hl : ∀ c, (collapseWs (toLowerStr (pyStrip s))).getLast? = some c →
        isPySpace c = false := by
      intro c hc
      rw [collapseWs, collapseAux_getLast _ false hlast] at hc
      exact hlast c hc
    rw [pyStrip, pyTrimLeft_eq_self _ hh, pyTrimRight_eq_self _ hl]
  · apply toLowerStr_fix
    intro c hc
    rcases collapseAux_mem _ false c hc with rfl | hc2
    · decide
    · rw [toLowerStr] at hc2
      rcases List.mem_map.1 hc2 with ⟨c0, _, rfl⟩
      exact toLower_toLower c0

theorem pyStrNorm_idem (s : List Char) :
    pyStrNorm (pyStrNorm s) = pyStrNorm s := by
  obtain ⟨hstrip, hlower, hcollapse⟩ := strNorm_core_canon s
  by_cases hm : matchesNumDotZero (collapseWs (toLowerStr (pyStrip s)))
  · rw [pyStrNorm_eq s, if_pos hm]
    set u := collapseWs (toLowerStr (pyStrip s)) with hu
    obtain ⟨hdec, _⟩ := matches_decomp u hm
    set ds := u.takeWhile Char.isDigit with hds
    have hdigits : ∀ c ∈ ds, c.isDigit = true := by
      intro c hc
      rw [hds] at hc
      exact List.mem_takeWhile_imp hc
    have htake : u.take (u.length - 2) = ds := by
      rw [hdec, List.length_append]
      simp only [List.length_cons, List.length_nil]
      rw [show ds.length + (0 + 1 + 1) - 2 = ds.length from by omega]
      exact List.take_left _ _
    rw [htake]
    exact pyStrNorm_digitlike ds (fun c hc => Or.inl (hdigits c hc))
      (matches_all_digits ds hdigits)
  · rw [pyStrNorm_eq s, if_neg hm]
    rw [pyStrNorm_eq, hstrip, hlower, hcollapse, if_neg hm]

/-! ## Integer and float representations under the normalizer -/

theorem natDigits_isDigit (n : Nat) : ∀ c ∈ natDigits n, c.isDigit = true := by
  induction n using Nat.strong_induction_on with
  | _ n ih =>
    rw [natDigits]
    by_cases h : n < 10
    · rw [dif_pos h]
      intro c hc
      rw [List.mem_singleton.1 hc]
      interval_cases n <;> decide
    · rw [dif_neg h]
      intro c hc
      rcases List.mem_append.1 hc with hc | hc
      · exact ih (n / 10) (Nat.div_lt_self (by omega) (by omega)) c hc
      · rw [List.mem_singleton.1 hc]
        have hm : n % 10 < 10 := Nat.mod_lt _ (by omega)
        revert hm
        generalize n % 10 = m
        intro hm
        interval_cases m <;> decide

theorem intRepr_chars (n : Int) :
    ∀ c ∈ intRepr n, c.isDigit = true ∨ c = '-' := by
  rw [intRepr]
  by_cases h : n < 0
  · rw [if_pos h]
    intro c hc
    cases hc with
    | head => exact Or.inr rfl
    | tail _ hc => exact Or.inl (natDigits_isDigit _ c hc)
  · rw [if_neg h]
    intro c hc
    exact Or.inl (natDigits_isDigit _ c hc)

theorem pyNorm_int_eq (n : Int) :
    toLowerStr (pyStrip (intRepr n)) = intRepr n := by
  have h := intRepr_chars n
  have hnws : ∀ c ∈ intRepr n, isPySpace c = false := by
    intro c hc
    rcases h c hc with hd | rfl
    · exact not_isPySpace_of_isDigit _ hd
    · decide
  have hlow : ∀ c ∈ intRepr n, Char.toLower c = c := by
    intro c hc
    rcases h c hc with hd | rfl
    · exact toLower_of_isDigit _ hd
    · decide
  rw [pyStrip_of_no_ws _ hnws, toLowerStr_fix _ hlow]

theorem pyStrNorm_intRepr (n : Int) : pyStrNorm (intRepr n) = intRepr n := by
  apply pyStrNorm_digitlike
  · intro c hc
    rcases intRepr_chars n c hc with hd | rfl
    · exact Or.inl hd
    · exact Or.inr (Or.inl rfl)
  · apply matches_no_dot
    intro c hc hcon
    rcases intRepr_chars n c hc with hd | h2
    · rw [hcon] at hd
      exact absurd hd (by decide)
    · rw [hcon] at h2
      cases h2

theorem dropTrailingZeros_subset (l : List Char) :
    ∀ c ∈ dropTrailingZeros l, c ∈ l := by
  intro c hc
  rw [dropTrailingZeros, List.mem_reverse] at hc
  rw [← List.mem_reverse]
  exact (List.dropWhile_suffix _).sublist.subset hc

theorem leftPadZeros_chars (w : Nat) (ds : List Char)
    (h : ∀ c ∈ ds, c.isDigit = true) :
    ∀ c ∈ leftPadZeros w ds, c.isDigit = true := by
  intro c hc
  rw [leftPadZeros] at hc
  rcases List.mem_append.1 hc with hc | hc
  · rw [List.eq_of_mem_replicate hc]
    decide
  · exact h c hc

theorem pyFloatRepr_chars (m : Int) (e : Nat) :
    ∀ c ∈ pyFloatRepr m e, c.isDigit = true ∨ c = '-' ∨ c = '.' := by
  intro c hc
  rw [pyFloatRepr] at hc
  simp only [List.append_assoc, List.mem_append, List.mem_cons] at hc
  rcases hc with hc | hc | rfl | hc
  · split at hc
    · rw [List.mem_singleton.1 hc]
      exact Or.inr (Or.inl rfl)
    · cases hc
  · exact Or.inl (natDigits_isDigit _ c hc)
  · exact Or.inr (Or.inr rfl)
  · have := dropTrailingZeros_subset _ c hc
    exact Or.inl (leftPadZeros_chars _ _ (natDigits_isDigit _) c this)

theorem dropTrailingZeros_ne_single_zero (l : List Char) :
    dropTrailingZeros l ≠ ['0'] := by
  intro hcon
  have h1 : l.reverse.dropWhile (fun c => c == '0') = ['0'] := by
    have := congrArg List.reverse hcon
    rw [dropTrailingZeros, List.reverse_reverse] at this
    simpa using this
  have hh := List.head?_dropWhile_not (fun c => c == '0') l.reverse
  rw [h1] at hh
  simp at hh

theorem takeWhile_append_stop {p : Char → Bool} (a : List Char) (b : Char)
    (t : List Char) (ha : ∀ c ∈ a, p c = true) (hb : p b = false) :
    (a ++ b :: t).takeWhile p = a := by
  induction a with
  | nil => rw [List.nil_append, List.takeWhile_cons, if_neg (by simp [hb])]
  | cons c a' ih =>
    rw [List.cons_append, List.takeWhile_cons, if_pos (ha c (.head _))]
    rw [ih (fun c hc => ha c (.tail _ hc))]

theorem matches_pyFloatRepr (m : Int) (e : Nat) :
    matchesNumDotZero (pyFloatRepr m e) = false := by
  by_cases hm : m < 0
  · have hr : pyFloatRepr m e =
        '-' :: (natDigits (m.natAbs / 2 ^ e) ++
          '.' :: dropTrailingZeros (leftPadZeros e
            (natDigits (m.natAbs % 2 ^ e * 5 ^ e)))) := by
      rw [pyFloatRepr, if_pos hm]
      rfl
    rw [matchesNumDotZero, hr, List.takeWhile_cons, if_neg (by decide)]
    simp
  · have hr : pyFloatRepr m e =
        natDigits (m.natAbs / 2 ^ e) ++
          '.' :: dropTrailingZeros (leftPadZeros e
            (natDigits (m.natAbs % 2 ^ e * 5 ^ e))) := by
      rw [pyFloatRepr, if_neg hm]
      rfl
    rw [matchesNumDotZero, hr]
    rw [takeWhile_append_stop _ '.' _ (natDigits_isDigit _) (by decide)]
    rw [List.drop_left]
    have hfrac : (('.' :: dropTrailingZeros (leftPadZeros e
        (natDigits (m.natAbs % 2 ^ e * 5 ^ e))) : List Char) ==
          ['.', '0']) = false := by
      rw [beq_eq_false_iff_ne]
      intro hcon
      injection hcon with h1 h2
      exact dropTrailingZeros_ne_single_zero _ h2
    rw [hfrac, Bool.and_false]

/-! ## Whitespace padding and run lemmas at the strip level -/

theorem pyTrimLeft_pad (pre x : List Char)
    (hp : ∀ c ∈ pre, isPySpace c = true) :
    pyTrimLeft (pre ++ x) = pyTrimLeft x :=
  dropWhile_append_all pre x hp

theorem pyTrimRight_pad (x suf : List Char)
    (hs : ∀ c ∈ suf, isPySpace c = true) :
    pyTrimRight (x ++ suf) = pyTrimRight x := by
  rw [pyTrimRight, pyTrimRight, List.reverse_append,
    dropWhile_append_all _ _ (by
      intro c hc
      rw [List.mem_reverse] at hc
      exact hs c hc)]

theorem dropWhile_append_ne_nil {p : Char → Bool} (x y : List Char)
    (h : x.dropWhile p ≠ []) :
    (x ++ y).dropWhile p = x.dropWhile p ++ y := by
  induction x with
  | nil => exact absurd rfl h
  | cons c t ih =>
    rw [List.cons_append]
    by_cases hc : p c
    · have h' : t.dropWhile p ≠ [] := by
        rwa [List.dropWhile_cons, if_pos hc] at h
      rw [List.dropWhile_cons, if_pos hc, List.dropWhile_cons, if_pos hc]
      exact ih h'
    · rw [List.dropWhile_cons, if_neg hc, List.dropWhile_cons, if_neg hc,
        List.cons_append]

theorem pyStrip_pad (pre s suf : List Char)
    (hp : ∀ c ∈ pre, isPySpace c = true)
    (hs : ∀ c ∈ suf, isPySpace c = true) :
    pyStrip (pre ++ s ++ suf) = pyStrip s := by
  rw [pyStrip, List.append_assoc, pyTrimLeft_pad pre (s ++ suf) hp]
  by_cases hse : pyTrimLeft s = []
  · have hall : ∀ c ∈ s, isPySpace c = true :=
      List.dropWhile_eq_nil_iff.1 hse
    have h1 : pyTrimLeft (s ++ suf) = [] := by
      rw [pyTrimLeft, dropWhile_append_all s suf hall]
      exact dropWhile_all suf hs
    rw [h1, pyStrip, hse]
  · rw [show pyTrimLeft (s ++ suf) = pyTrimLeft s ++ suf from
      dropWhile_append_ne_nil s suf hse]
    rw [pyTrimRight_pad _ suf hs, pyStrip]

theorem pyNorm_float_repr_eq (m : Int) (e : Nat) :
    toLowerStr (pyStrip (pyFloatRepr m e)) = pyFloatRepr m e := by
  have h := pyFloatRepr_chars m e
  have hnws : ∀ c ∈ pyFloatRepr m e, isPySpace c = false := by
    intro c hc
    rcases h c hc with hd | rfl | rfl
    · exact not_isPySpace_of_isDigit _ hd
    · decide
    · decide
  have hlow : ∀ c ∈ pyFloatRepr m e, Char.toLower c = c := by
    intro c hc
    rcases h c hc with hd | rfl | rfl
    · exact toLower_of_isDigit _ hd
    · decide
    · decide
  rw [pyStrip_of_no_ws _ hnws, toLowerStr_fix _ hlow]

theorem pyStrNorm_floatRepr (m : Int) (e : Nat) :
    pyStrNorm (pyFloatRepr m e) = pyFloatRepr m e :=
  pyStrNorm_digitlike _ (pyFloatRepr_chars m e) (matches_pyFloatRepr m e)

theorem collapse_strip_comm (y : List Char) :
    collapseWs (pyStrip y) = pyTrimRight (pyTrimLeft (collapseWs y)) := by
  rw [pyStrip, collapseWs,
    show collapseAux false (pyTrimRight (pyTrimLeft y)) =
      pyTrimRight (collapseAux false (pyTrimLeft y)) from
      (pyTrimRight_collapseAux (pyTrimLeft y) false).symm,
    show collapseAux false (pyTrimLeft y) =
      pyTrimLeft (collapseAux false y) from
      (pyTrimLeft_collapseAux y false).symm]
  rfl

/-- Claim C5: the normalizer of step2.py is idempotent (renormalizing an
already-normalized value changes nothing) and case- and
whitespace-insensitive: lower-casing a string, adding all-whitespace
padding at either end, or replacing an internal whitespace run by a
single space never changes the normalized key, so two strings differing
only in letter case, leading or trailing whitespace, or internal
whitespace runs normalize to the same key. -/
theorem c5_normalizer_idempotent_insensitive :
    (∀ v : PyVal, pyNorm (.str (pyNorm v)) = pyNorm v) ∧
    (∀ s : List Char, pyNorm (.str (toLowerStr s)) = pyNorm (.str s)) ∧
    (∀ pre s suf : List Char, (∀ c ∈ pre, isPySpace c = true) →
      (∀ c ∈ suf, isPySpace c = true) →
      pyNorm (.str (pre ++ s ++ suf)) = pyNorm (.str s)) ∧
    (∀ a r b : List Char, (∀ c ∈ r, isPySpace c = true) → r ≠ [] →
      pyNorm (.str (a ++ r ++ b)) = pyNorm (.str (a ++ ' ' :: b))) := by
  refine ⟨?_, ?_, ?_, ?_⟩
  · intro v
    cases v with
    | pyNone => decide
    | nan => decide
    | int n =>
      have h1 : pyNorm (.int n) = intRepr n := pyNorm_int_eq n
      rw [h1]
      exact pyStrNorm_intRepr n
    | float m e =>
      by_cases hfi : floatIsInt m e
      · have h1 : pyNorm (.float m e) = intRepr (m / (2 : Int) ^ e) := by
          show (if floatIsInt m e then
              toLowerStr (pyStrip (intRepr (m / (2 : Int) ^ e)))
            else toLowerStr (pyStrip (pyFloatRepr m e))) = _
          rw [if_pos hfi, pyNorm_int_eq]
        rw [h1]
        exact pyStrNorm_intRepr _
      · have h1 : pyNorm (.float m e) = pyFloatRepr m e := by
          show (if floatIsInt m e then
              toLowerStr (pyStrip (intRepr (m / (2 : Int) ^ e)))
            else toLowerStr (pyStrip (pyFloatRepr m e))) = _
          rw [if_neg hfi, pyNorm_float_repr_eq]
        rw [h1]
        exact pyStrNorm_floatRepr _ _
    | inf negative => cases negative <;> decide
    | bool b => cases b <;> decide
    | str s => exact pyStrNorm_idem s
  · intro s
    show pyStrNorm (toLowerStr s) = pyStrNorm s
    rw [pyStrNorm_eq, pyStrNorm_eq, pyStrip_toLowerStr, toLowerStr_toLowerStr]
  · intro pre s suf hp hs
    show pyStrNorm (pre ++ s ++ suf) = pyStrNorm s
    rw [pyStrNorm_eq, pyStrNorm_eq, pyStrip_pad pre s suf hp hs]
  · intro a r b hr hne
    show pyStrNorm (a ++ r ++ b) = pyStrNorm (a ++ ' ' :: b)
    have hcore : collapseWs (toLowerStr (a ++ r ++ b)) =
        collapseWs (toLowerStr (a ++ ' ' :: b)) := by
      have hmap : toLowerStr (a ++ r ++ b) =
          toLowerStr a ++ toLowerStr r ++ toLowerStr b := by
        simp [toLowerStr, List.map_append]
      have hmap2 : toLowerStr (a ++ ' ' :: b) =
          toLowerStr a ++ ' ' :: toLowerStr b := by
        simp only [toLowerStr, List.map_append, List.map_cons]
        rw [show Char.toLower ' ' = ' ' from by decide]
      rw [hmap, hmap2]
      exact collapseAux_run_replace (toLowerStr a) (toLowerStr r)
        (toLowerStr b) false
        (by
          intro c hc
          rcases List.mem_map.1 hc with ⟨c0, hc0, rfl⟩
          rw [isPySpace_toLower]
          exact hr c0 hc0)
        (by simpa [toLowerStr] using hne)
    have hkey : collapseWs (toLowerStr (pyStrip (a ++ r ++ b))) =
        collapseWs (toLowerStr (pyStrip (a ++ ' ' :: b))) := by
      rw [← pyStrip_toLowerStr, ← pyStrip_toLowerStr,
        collapse_strip_comm, collapse_strip_comm, hcore]
    rw [pyStrNorm_eq, pyStrNorm_eq, hkey]

/-- Witness for claim C5: leading whitespace does not change the key of
a concrete string. -/
theorem c5_normalizer_witness :
    ((∀ c ∈ ([' '] : List Char), isPySpace c = true) ∧
     (∀ c ∈ ([] : List Char), isPySpace c = true)) ∧
    pyNorm (.str ([' '] ++ "abc".data ++ [])) = pyNorm (.str "abc".data) :=
  ⟨⟨by decide, by decide⟩,
    c5_normalizer_idempotent_insensitive.2.2.1 [' '] "abc".data []
      (by decide) (by decide)⟩
